import Mathlib

/-!
Verification development for the idxr pipeline: a shallow embedding of the
partitioning engine (`prepare_datasets_lib/manifest.py`,
`prepare_datasets_lib/partitions.py`), the batch indexer
(`vectorize_lib/indexing.py`, `vectorize_lib/token_management.py`) and the
fan-out query client (`vectorize_lib/query_client.py`), together with proofs
about the embedded definitions.  Source line references are given next to
each definition.
-/

namespace Idxr

/-! ### Python primitives

`pyJoin` models Python's `delimiter.join(cells)` (an empty list joins to the
empty string, otherwise the cells separated by the delimiter). -/

def pyJoin (d : String) : List String → String
  | [] => ""
  | x :: xs => xs.foldl (fun acc s => acc ++ d ++ s) x

/-! ### UTF-8 encoding

`utf8Bytes` models `str.encode("utf-8")`: each code point is serialised to
1-4 bytes.  Bytes are `Nat`s below 256. -/

def utf8EncodeChar (c : Nat) : List Nat :=
  if c < 0x80 then [c]
  else if c < 0x800 then [0xC0 + c / 64, 0x80 + c % 64]
  else if c < 0x10000 then
    [0xE0 + c / 4096, 0x80 + (c / 64) % 64, 0x80 + c % 64]
  else
    [0xF0 + c / 262144, 0x80 + (c / 4096) % 64, 0x80 + (c / 64) % 64,
     0x80 + c % 64]

def utf8Bytes (s : String) : List Nat :=
  (s.data.map (fun c => utf8EncodeChar c.toNat)).flatten

/-! ### SHA-1 (`hashlib.sha1`)

A direct implementation of FIPS 180 SHA-1 over byte lists, word arithmetic
done on `Nat` modulo `2 ^ 32`. -/

def w32 (n : Nat) : Nat := n % 4294967296

def rotl32 (b n : Nat) : Nat :=
  w32 ((n <<< b) + (n >>> (32 - b)))

def sha1NotW (n : Nat) : Nat := 4294967295 - n

/-- Message padding: append `0x80`, zero bytes to 56 mod 64, then the bit
length as an 8-byte big-endian integer. -/
def sha1Pad (msg : List Nat) : List Nat :=
  let len := msg.length
  let padZeros := (64 + 56 - (len + 1) % 64) % 64
  let bitLen := 8 * len
  msg ++ [0x80] ++ List.replicate padZeros 0 ++
    [(bitLen >>> 56) % 256, (bitLen >>> 48) % 256, (bitLen >>> 40) % 256,
     (bitLen >>> 32) % 256, (bitLen >>> 24) % 256, (bitLen >>> 16) % 256,
     (bitLen >>> 8) % 256, bitLen % 256]

/-- Split into 64-byte chunks.  Structural recursion on a fuel bounded by the
byte count so the definition reduces inside the kernel. -/
def sha1ChunksAux : Nat → List Nat → List (List Nat)
  | _, [] => []
  | 0, bytes => [bytes]
  | fuel + 1, b :: rest => (b :: rest).take 64 :: sha1ChunksAux fuel ((b :: rest).drop 64)

def sha1Chunks (bytes : List Nat) : List (List Nat) :=
  sha1ChunksAux bytes.length bytes

/-- The sixteen 32-bit big-endian words of one 64-byte chunk. -/
def sha1Words16 (chunk : List Nat) : List Nat :=
  (List.range 16).map fun i =>
    w32 (chunk.getD (4 * i) 0 * 16777216 + chunk.getD (4 * i + 1) 0 * 65536 +
         chunk.getD (4 * i + 2) 0 * 256 + chunk.getD (4 * i + 3) 0)

/-- Extend sixteen words to eighty:
`w[i] = rotl1 (w[i-3] xor w[i-8] xor w[i-14] xor w[i-16])` where `i` is the
current length of the word list.  Runs `fuel` extension steps. -/
def sha1ExtendAux : Nat → List Nat → List Nat
  | 0, ws => ws
  | fuel + 1, ws =>
    let i := ws.length
    let wNew := rotl32 1 (Nat.xor (Nat.xor (ws.getD (i - 3) 0) (ws.getD (i - 8) 0))
      (Nat.xor (ws.getD (i - 14) 0) (ws.getD (i - 16) 0)))
    sha1ExtendAux fuel (ws ++ [wNew])

def sha1Extend (ws : List Nat) : List Nat :=
  sha1ExtendAux (80 - ws.length) ws

def sha1F (t b c d : Nat) : Nat :=
  if t < 20 then Nat.lor (Nat.land b c) (Nat.land (sha1NotW b) d)
  else if t < 40 then Nat.xor (Nat.xor b c) d
  else if t < 60 then
    Nat.lor (Nat.lor (Nat.land b c) (Nat.land b d)) (Nat.land c d)
  else Nat.xor (Nat.xor b c) d

def sha1K (t : Nat) : Nat :=
  if t < 20 then 0x5A827999
  else if t < 40 then 0x6ED9EBA1
  else if t < 60 then 0x8F1BBCDC
  else 0xCA62C1D6

/-- One compression round. State is `(a, b, c, d, e)`. -/
def sha1Round (st : Nat × Nat × Nat × Nat × Nat) (tw : Nat × Nat) :
    Nat × Nat × Nat × Nat × Nat :=
  let (a, b, c, d, e) := st
  let (t, wt) := tw
  let tmp := w32 (rotl32 5 a + sha1F t b c d + e + sha1K t + wt)
  (tmp, a, rotl32 30 b, c, d)

/-- Process one 64-byte chunk, updating the five hash words. -/
def sha1Chunk (h : Nat × Nat × Nat × Nat × Nat) (chunk : List Nat) :
    Nat × Nat × Nat × Nat × Nat :=
  let ws := sha1Extend (sha1Words16 chunk)
  let (h0, h1, h2, h3, h4) := h
  let (a, b, c, d, e) :=
    (((List.range 80).zip ws).foldl sha1Round (h0, h1, h2, h3, h4))
  (w32 (h0 + a), w32 (h1 + b), w32 (h2 + c), w32 (h3 + d), w32 (h4 + e))

def hexChar (n : Nat) : Char :=
  "0123456789abcdef".data.getD n '0'

def toHex8 (n : Nat) : String :=
  String.mk ((List.range 8).map fun i => hexChar ((n >>> (28 - 4 * i)) % 16))

/-- `hashlib.sha1(bytes).hexdigest()`. -/
def sha1Hex (msg : List Nat) : String :=
  let chunks := sha1Chunks (sha1Pad msg)
  let (h0, h1, h2, h3, h4) :=
    chunks.foldl sha1Chunk (0x67452301, 0xEFCDAB89, 0x98BADCFE, 0x10325476,
      0xC3D2E1F0)
  toHex8 h0 ++ toHex8 h1 ++ toHex8 h2 ++ toHex8 h3 ++ toHex8 h4

/-! ### Row digest (`prepare_datasets_lib/manifest.py:15-23`) -/

/-- `ROW_DIGEST_DELIMITER = "␟"` -/
def ROW_DIGEST_DELIMITER : String := "␟"

/-- `compute_row_digest` (manifest.py:18-23): SHA-1 over the cells joined by
the unit-separator delimiter, `None` serialised as the empty string. -/
def compute_row_digest (values : List (Option String)) : String :=
  let payload := pyJoin ROW_DIGEST_DELIMITER (values.map fun v => v.getD "")
  sha1Hex (utf8Bytes payload)

/-- Digest of a row already materialised as strings (the callers in
`partitions.py` pass plain string lists). -/
def rowDigestStr (values : List String) : String :=
  compute_row_digest (values.map some)

/-! ### `fix_malformed_values` (`prepare_datasets_lib/partitions.py:273-299`)

`values[a:b]` is modelled as `(values.take b).drop a` and the negative slice
`values[-tc:]` (with `tc > 0`) as `values.drop (values.length - tc)`, both
matching Python slice semantics for the index ranges that occur here. -/

def fix_malformed_values (values : List String) (expected_columns : Option Int)
    (malformed_column : Option Int) (delimiter : String) : List String :=
  match expected_columns, malformed_column with
  | none, _ => values
  | some _, none => values
  | some ec, some mc =>
    if ec ≤ 0 ∨ (values.length : Int) ≤ ec then values
    else
      let target_index : Int := max 0 (min (ec - 1) (mc - 1))
      let leading_count : Nat := target_index.toNat
      let trailing_count : Nat := (max 0 (ec - target_index - 1)).toNat
      let leading := values.take leading_count
      let trailing :=
        if trailing_count ≠ 0 then values.drop (values.length - trailing_count)
        else []
      let middle := (values.take (values.length - trailing.length)).drop leading.length
      let reconstructed := pyJoin delimiter middle
      let candidate := leading ++ [reconstructed] ++ trailing
      if (candidate.length : Int) = ec then candidate else values

/-! ### Manifest data model (`prepare_datasets_lib/manifest.py`)

A partition entry keeps the fields the engine reads back: the per-record-type
CSV paths and row counts (`models`), the stale flag and the replacement
links.  Timestamps (`created_at`, `stale_at`) and absolute directory/config
paths are opaque strings not consulted by any modelled code path and are
elided.  The filesystem is modelled as an association list from path to CSV
content (first row = header row). -/

structure ModelInfo where
  path : String
  rows : Nat
deriving DecidableEq, Repr

structure SchemaEntry where
  signature : String
  version : Nat
deriving DecidableEq, Repr

structure PartitionEntry where
  name : String
  models : List (String × ModelInfo)
  rows : Nat
  stale : Bool
  staleReason : Option String
  replaces : List String
  replacedBy : List String
deriving DecidableEq, Repr

structure Manifest where
  partitions : List PartitionEntry
  modelSchemas : List (String × SchemaEntry)
  runs : List (String × List String)
deriving DecidableEq, Repr

abbrev FileSys := List (String × List (List String))

def fsRead (fs : FileSys) (path : String) : Option (List (List String)) :=
  fs.lookup path

/-! Seen-digest sets: `defaultdict(set)` keyed by record-type name.  A set is
an insertion-ordered duplicate-free list. -/

def seenAdd : List (String × List String) → String → String →
    List (String × List String)
  | [], m, d => [(m, [d])]
  | (k, ds) :: rest, m, d =>
    if k = m then (k, if d ∈ ds then ds else ds ++ [d]) :: rest
    else (k, ds) :: seenAdd rest m d

def seenAddMany (seen : List (String × List String)) (m : String)
    (ds : List String) : List (String × List String) :=
  ds.foldl (fun s d => seenAdd s m d) seen

def seenGet (seen : List (String × List String)) (m : String) : List String :=
  (seen.lookup m).getD []

/-- `load_existing_hashes` pads or truncates each data row to the header
width before hashing (manifest.py:86-93). -/
def padRowToHeader (headerCount : Nat) (row : List String) : List String :=
  (List.range headerCount).map fun idx => row.getD idx ""

def digestOfCsvRow (headers : List String) (row : List String) : String :=
  rowDigestStr (padRowToHeader headers.length row)

/-- Hash loading for one `models` entry of one partition
(manifest.py:66-100): skip missing files and files with no header row,
otherwise add the digest of every (padded) data row to the record type's
seen set. -/
def loadModelHashes (fs : FileSys) (seen : List (String × List String))
    (modelName : String) (info : ModelInfo) : List (String × List String) :=
  match fsRead fs info.path with
  | none => seen
  | some [] => seen
  | some (headers :: rows) =>
    if headers = [] then seen
    else seenAddMany seen modelName (rows.map fun row => digestOfCsvRow headers row)

/-- `load_existing_hashes` (manifest.py:53-101).  Note that it iterates over
every partition entry of the manifest; the `stale` flag is never consulted. -/
def load_existing_hashes (fs : FileSys) (manifest : Manifest) :
    List (String × List String) :=
  manifest.partitions.foldl
    (fun seen entry =>
      entry.models.foldl (fun s mi => loadModelHashes fs s mi.1 mi.2) seen)
    []

/-- The same manifest with every partition's `stale` flag cleared (used to
state that hash hydration never consults the flag). -/
def clearStale (m : Manifest) : Manifest :=
  { m with partitions := m.partitions.map fun e => { e with stale := false } }

/-! ### Schema version propagation (`partitions.py:511-522`) -/

/-- One record type's schema registry update: given the manifest's prior
entry and the current signature, return the new entry and whether the record
type enters the modified set. -/
def schemaStep (previous : Option SchemaEntry) (signature : String) :
    SchemaEntry × Bool :=
  match previous with
  | some prev =>
    if prev.signature ≠ signature then
      (⟨signature, prev.version + 1⟩, true)
    else (⟨signature, prev.version⟩, false)
  | none => (⟨signature, 1⟩, false)

/-- The registry trace across successive runs: each run stores the entry
computed by `schemaStep` and the next run reads it back. -/
def schemaTraceAux (previous : Option SchemaEntry) : List String → List SchemaEntry
  | [] => []
  | sig :: rest =>
    let e := (schemaStep previous sig).1
    e :: schemaTraceAux (some e) rest

def schemaTrace (sigs : List String) : List SchemaEntry :=
  schemaTraceAux none sigs

/-! ### PartitionWriter (`partitions.py:37-241`)

File handles, CSV writers and sidecar digest files are filesystem effects;
the model records the partition directories the writer creates
(`dirsCreated`, one entry per `mkdir` in `_start_partition`) and, per open
or finalised partition, the per-record-type row counts that the source keeps
in `model_counts` / `rows`.  Errors raised by `write_row` are modelled with
`Except`. -/

structure WPartition where
  name : String
  modelCounts : List (String × Nat)
  rows : Nat
  replaces : List String
deriving DecidableEq, Repr

structure CreatedPartition where
  name : String
  rows : Nat
  models : List (String × Nat)
  replaces : List String
deriving DecidableEq, Repr

structure WriterState where
  directorySize : Nat
  partitionIndex : Nat
  current : Option WPartition
  created : List CreatedPartition
  contextPartition : Option String
  replacements : List (String × List String)
  dirsCreated : List String
deriving DecidableEq, Repr

/-- `f"partition_{index:05d}"` -/
def zeroPad5 (n : Nat) : String :=
  let s := toString n
  String.mk (List.replicate (5 - s.length) '0') ++ s

def partitionNameOf (i : Nat) : String := "partition_" ++ zeroPad5 i

/-- `defaultdict(set)` update used for `partition_replacements`. -/
def replAdd : List (String × List String) → String → String →
    List (String × List String)
  | [], k, v => [(k, [v])]
  | (k', vs) :: rest, k, v =>
    if k' = k then (k', if v ∈ vs then vs else vs ++ [v]) :: rest
    else (k', vs) :: replAdd rest k v

/-- `defaultdict(int)` increment used for `model_counts`. -/
def countAdd : List (String × Nat) → String → List (String × Nat)
  | [], m => [(m, 1)]
  | (k, c) :: rest, m =>
    if k = m then (k, c + 1) :: rest else (k, c) :: countAdd rest m

def initWriter (directorySize startingIndex : Nat) : WriterState :=
  { directorySize := directorySize
    partitionIndex := startingIndex
    current := none
    created := []
    contextPartition := none
    replacements := []
    dirsCreated := [] }

/-- `_start_partition` (partitions.py:63-81): name the next partition, make
its directory, and record the carryover context in `replaces` /
`partition_replacements`. -/
def startPartition (st : WriterState) : WriterState :=
  let name := partitionNameOf st.partitionIndex
  let part : WPartition :=
    { name := name
      modelCounts := []
      rows := 0
      replaces :=
        match st.contextPartition with
        | some c => [c]
        | none => [] }
  { st with
    partitionIndex := st.partitionIndex + 1
    dirsCreated := st.dirsCreated ++ [name]
    current := some part
    replacements :=
      match st.contextPartition with
      | some c => replAdd st.replacements c name
      | none => st.replacements }

/-- `finalize_current` (partitions.py:100-145): an empty partition directory
is removed and not recorded; otherwise the partition becomes a
`created_partitions` record. -/
def finalizeCurrent (st : WriterState) : WriterState :=
  match st.current with
  | none => st
  | some part =>
    if part.rows = 0 then { st with current := none }
    else
      { st with
        current := none
        created := st.created ++
          [{ name := part.name
             rows := part.rows
             models := part.modelCounts
             replaces := part.replaces }] }

/-- `set_context` (partitions.py:164-165). -/
def setContext (st : WriterState) (p : Option String) : WriterState :=
  { st with contextPartition := p }

/-- `write_row` (partitions.py:167-241): roll the partition over when none is
open or the partition's total `rows` count has reached `directory_size`
(`0` disables capping), then append the row, bumping `model_counts` and
`rows`.  The CSV write, header write and digest sidecar line are filesystem
effects of the same call. -/
def writeRow (st : WriterState) (modelName : String) (headers : List String)
    (_rowValues : List String) : Except String WriterState :=
  let st :=
    if st.current.isNone ||
        (st.directorySize != 0 &&
          decide ((st.current.map WPartition.rows).getD 0 ≥ st.directorySize)) then
      startPartition (finalizeCurrent st)
    else st
  match st.current with
  | none => Except.error "Partition writer failed to initialize partition."
  | some part =>
    if headers = [] then
      Except.error ("No headers available for model " ++ modelName)
    else
      let part :=
        { part with
          modelCounts := countAdd part.modelCounts modelName
          rows := part.rows + 1 }
      Except.ok { st with current := some part }

/-- A bare run of the writer: a sequence of `write_row` calls
`(model_name, headers, row_values)` against a fresh writer. -/
def runWrites (directorySize : Nat)
    (ws : List (String × List String × List String)) :
    Except String WriterState :=
  ws.foldlM (fun st w => writeRow st w.1 w.2.1 w.2.2) (initWriter directorySize 0)

/-! ### `write_partitions` (`partitions.py:473-740`)

The run driver.  The filesystem is the `FileSys` association list, the
record-type registry enters through `sigOf` (the per-record-type schema
signature, `get_model_schema_signature`), and the CSV reader
(`iterate_model_rows`, the file/stitching machinery of partitions.py:302-452)
enters through `iterRows`, which yields the reader's per-row
`source column → value` dictionaries for a record type's configured source.
`sorted` on Python strings is lexicographic by code point, matching the
`String` linear order. -/

def sortStrings (l : List String) : List String :=
  l.insertionSort (· ≤ ·)

/-- Python `dict` lookup on an association list built by repeated
assignment: the last binding wins. -/
def pyDictGet {α : Type} : List (String × α) → String → Option α
  | [], _ => none
  | (k, v) :: rest, key =>
    match pyDictGet rest key with
    | some r => some r
    | none => if k = key then some v else none

/-- Python `dict` assignment: overwrite in place, else append. -/
def assocSet {α : Type} : List (String × α) → String → α → List (String × α)
  | [], k, v => [(k, v)]
  | (k', v') :: rest, k, v =>
    if k' = k then (k', v) :: rest else (k', v') :: assocSet rest k v

def optFlat {α : Type} : Option (Option α) → Option α
  | none => none
  | some x => x

structure PrepModelConfig where
  path : Option String
  columns : List (String × String)
  dropNaColumns : List String
deriving DecidableEq, Repr

/-- The row projection of the ingest pass (partitions.py:661-664): for each
final header column take the sanitised row's value, `""` when the column is
absent or `None`. -/
def rowValuesFor (sanitized : List (String × Option String))
    (headers : List String) : List String :=
  headers.map fun c => (optFlat (pyDictGet sanitized c)).getD ""

/-- A drop-NA hit: the projected value is absent, `None`, `""`, `"NA"` or
`"N/A"` (partitions.py:467-469). -/
def dropNaHit (finalRow : List (String × Option String)) (f : String) : Bool :=
  match pyDictGet finalRow f with
  | none => true
  | some none => true
  | some (some s) => s = "" || s = "NA" || s = "N/A"

/-- `sanitize_row` (partitions.py:455-470): project the raw row through the
config's `target_field → source_column` map (identity if empty), then drop
the row if any `drop_na_columns` field is NA-like. -/
def sanitize_row (row : List (String × Option String)) (cfg : PrepModelConfig) :
    Option (List (String × Option String)) :=
  let finalRow :=
    if cfg.columns ≠ [] then
      cfg.columns.map fun tc => (tc.1, optFlat (pyDictGet row tc.2))
    else row
  if cfg.dropNaColumns.any (dropNaHit finalRow) then none else some finalRow

structure CarryModel where
  headers : List String
  rows : List (List String)
deriving DecidableEq, Repr

/-- Carryover collection (partitions.py:546-589): for each impacted
partition, read the CSVs of its record types that are not in the modified
set; remember headers and rows, and feed every row's digest into the seen
sets.  Files that are missing, header-less or empty are skipped with a
warning. -/
def carryoverCollect (fs : FileSys) (modified : List String)
    (impacted : List PartitionEntry) (seen0 : List (String × List String)) :
    List (String × List (String × CarryModel)) ×
      List (String × List String) × List (String × List String) :=
  impacted.foldl
    (fun acc entry =>
      if entry.name = "" then acc
      else
        let (copied, hm1, seen1) :=
          entry.models.foldl
            (fun acc2 mi =>
              let (copied, hm, seen) := acc2
              if mi.1 ∈ modified then acc2
              else
                match fsRead fs mi.2.path with
                | none => acc2
                | some [] => acc2
                | some (headers :: rows) =>
                  if headers = [] then acc2
                  else if rows = [] then acc2
                  else
                    ((copied ++ [(mi.1, ⟨headers, rows⟩)] :
                        List (String × CarryModel)),
                      (if (hm.lookup mi.1).isNone then hm ++ [(mi.1, headers)]
                       else hm),
                      seenAddMany seen mi.1 (rows.map rowDigestStr)))
            (([] : List (String × CarryModel)), acc.2.1, acc.2.2)
        if copied ≠ [] then (acc.1 ++ [(entry.name, copied)], hm1, seen1)
        else (acc.1, hm1, seen1))
    ([], [], seen0)

/-- Carryover write pass (partitions.py:616-643): rehydrate the unaffected
record types of every impacted partition into the current partition, with
the impacted partition recorded as carryover context. -/
def carryoverWritePass (byPart : List (String × List (String × CarryModel)))
    (impacted : List PartitionEntry)
    (st : WriterState × List (String × List String) ×
      List (String × List String)) :
    Except String (WriterState × List (String × List String) ×
      List (String × List String)) :=
  impacted.foldlM
    (fun acc entry => do
      if entry.name = "" then pure acc
      else
        let carryModels := (byPart.lookup entry.name).getD []
        if carryModels = [] then pure acc
        else
          let w := setContext acc.1 (some entry.name)
          let inner ← carryModels.foldlM
            (fun acc2 mcm => do
              if mcm.2.rows = [] then pure acc2
              else
                let fh := assocSet acc2.2.1 mcm.1 mcm.2.headers
                let ws ← mcm.2.rows.foldlM
                  (fun (ws : WriterState × List (String × List String)) row => do
                    let w' ← writeRow ws.1 mcm.1 mcm.2.headers row
                    pure (w', seenAdd ws.2 mcm.1 (rowDigestStr row)))
                  (acc2.1, acc2.2.2)
                pure (ws.1, fh, ws.2))
            (w, acc.2.1, acc.2.2)
          pure (setContext inner.1 none, inner.2.1, inner.2.2))
    st

/-- Ingest pass (partitions.py:646-673): stream the configured source of
each record type, sanitise, project onto the final headers, de-duplicate by
digest, and write. -/
def ingestPass (configs : List (String × PrepModelConfig))
    (iterRows : String → List (List (String × Option String)))
    (modelNames : List String)
    (st : WriterState × List (String × List String) ×
      List (String × List String)) :
    Except String (WriterState × List (String × List String) ×
      List (String × List String)) :=
  modelNames.foldlM
    (fun acc m =>
      match configs.lookup m with
      | none => pure acc
      | some cfg =>
        match cfg.path with
        | none => pure acc
        | some _ =>
          (iterRows m).foldlM
            (fun acc2 rawRow => do
              match sanitize_row rawRow cfg with
              | none => pure acc2
              | some sanitized =>
                let headers0 := ((acc2.2.1).lookup m).getD []
                let headers :=
                  if headers0 = [] then sanitized.map (·.1) else headers0
                let fh :=
                  if headers0 = [] then assocSet acc2.2.1 m headers
                  else acc2.2.1
                let rowValues := rowValuesFor sanitized headers
                let digest := rowDigestStr rowValues
                if digest ∈ seenGet acc2.2.2 m then pure acc2
                else do
                  let w' ← writeRow acc2.1 m headers rowValues
                  pure (w', fh, seenAdd acc2.2.2 m digest))
            acc)
    st

structure RunOutcome where
  savedManifest : Option Manifest
  created : List CreatedPartition
  dirsCreated : List String
deriving DecidableEq, Repr

def modelsToConsider (manifest : Manifest)
    (configs : List (String × PrepModelConfig)) : List String :=
  (configs.map (·.1) ++
    manifest.partitions.flatMap fun e => e.models.map (·.1)).dedup

def newSchemaEntries (manifest : Manifest)
    (configs : List (String × PrepModelConfig)) (sigOf : String → String) :
    List (String × SchemaEntry × Bool) :=
  (modelsToConsider manifest configs).map fun m =>
    (m, schemaStep (manifest.modelSchemas.lookup m) (sigOf m))

def modifiedModelsOf (manifest : Manifest)
    (configs : List (String × PrepModelConfig)) (sigOf : String → String) :
    List String :=
  ((newSchemaEntries manifest configs sigOf).filter fun e => e.2.2).map (·.1)

/-- `missing_modified_sources` (partitions.py:524-528). -/
def missingModifiedSources (manifest : Manifest)
    (configs : List (String × PrepModelConfig)) (sigOf : String → String) :
    List String :=
  (sortStrings (modifiedModelsOf manifest configs sigOf)).filter fun m =>
    match configs.lookup m with
    | none => true
    | some cfg => cfg.path.isNone

/-- The impacted partitions (partitions.py:536-544): not already stale and
containing a modified record type. -/
def impactedOf (manifest : Manifest)
    (configs : List (String × PrepModelConfig)) (sigOf : String → String) :
    List PartitionEntry :=
  manifest.partitions.filter fun e =>
    !e.stale && e.models.any fun mi =>
      decide (mi.1 ∈ modifiedModelsOf manifest configs sigOf)

/-- The record types processed by the ingest pass, `sorted(set(…))`
(partitions.py:593). -/
def modelNamesOf (manifest : Manifest)
    (configs : List (String × PrepModelConfig))
    (carryHeaders : List (String × List String)) : List String :=
  sortStrings ((modelsToConsider manifest configs) ++
    carryHeaders.map (·.1)).dedup

/-- The initial `final_headers` map (partitions.py:595-605). -/
def finalHeaders0 (configs : List (String × PrepModelConfig))
    (carryHeaders : List (String × List String)) (modelNames : List String) :
    List (String × List String) :=
  modelNames.map fun m =>
    (m,
      match carryHeaders.lookup m with
      | some h => h
      | none =>
        match configs.lookup m with
        | some cfg => if cfg.columns ≠ [] then cfg.columns.map (·.1) else []
        | none => [])

/-- The writer phase of `write_partitions` (partitions.py:546-677): hydrate
seen digests, collect carryover, run the carryover and ingest passes
against a writer starting at index `len(partitions)`, and finalise the open
partition. -/
def runPasses (fs : FileSys) (manifest : Manifest)
    (configs : List (String × PrepModelConfig)) (directorySize : Nat)
    (sigOf : String → String)
    (iterRows : String → List (List (String × Option String))) :
    Except String WriterState :=
  let seen0 := load_existing_hashes fs manifest
  let modified := modifiedModelsOf manifest configs sigOf
  let impacted := impactedOf manifest configs sigOf
  let collected := carryoverCollect fs modified impacted seen0
  let modelNames := modelNamesOf manifest configs collected.2.1
  let fh0 := finalHeaders0 configs collected.2.1 modelNames
  let writer0 := initWriter directorySize manifest.partitions.length
  do
    let s1 ← carryoverWritePass collected.1 impacted (writer0, fh0, collected.2.2)
    let s2 ← ingestPass configs iterRows modelNames s1
    pure (finalizeCurrent s2.1)

/-- The end-of-run manifest update (partitions.py:690-734): append the
created partition records, update the schema registry, record the run, and
mark impacted partitions stale with their replacement links. -/
def updatedManifest (manifest : Manifest)
    (configs : List (String × PrepModelConfig)) (sigOf : String → String)
    (runId : String) (outputRoot : String) (w : WriterState) : Manifest :=
  let impactedNames := (impactedOf manifest configs sigOf).map (·.name)
  let newEntries : List PartitionEntry := w.created.map fun c =>
    { name := c.name
      models := c.models.map fun mc =>
        (mc.1,
          ModelInfo.mk
            (outputRoot ++ "/" ++ c.name ++ "/" ++ mc.1 ++ ".csv") mc.2)
      rows := c.rows
      stale := false
      staleReason := none
      replaces := sortStrings c.replaces
      replacedBy := [] }
  let staleMarked := manifest.partitions.map fun e =>
    if e.name ≠ "" && decide (e.name ∈ impactedNames) && !e.stale then
      let newNames := sortStrings ((w.replacements.lookup e.name).getD [])
      { e with
        stale := true
        staleReason := some "schema-change"
        replacedBy :=
          if newNames ≠ [] then
            sortStrings (e.replacedBy ++ newNames).dedup
          else e.replacedBy }
    else e
  let newSchemas :=
    (newSchemaEntries manifest configs sigOf).foldl
      (fun ms me => assocSet ms me.1 me.2.1) manifest.modelSchemas
  { partitions := staleMarked ++ newEntries
    modelSchemas := newSchemas
    runs := manifest.runs ++ [(runId, w.created.map (·.name))] }

/-- `write_partitions` (partitions.py:473-740).  The outcome records the
manifest written at end-of-run (`none` when the source returns without
calling `save_manifest`), the created partition records, and the partition
directories made on disk.  Timestamps (`created_at`, `stale_at`, run
`created_at`) are elided. -/
def write_partitions (fs : FileSys) (manifest : Manifest)
    (configs : List (String × PrepModelConfig)) (directorySize : Nat)
    (sigOf : String → String)
    (iterRows : String → List (List (String × Option String)))
    (runId : String) (outputRoot : String) : Except String RunOutcome :=
  if missingModifiedSources manifest configs sigOf ≠ [] then
    Except.ok { savedManifest := none, created := [], dirsCreated := [] }
  else
    match runPasses fs manifest configs directorySize sigOf iterRows with
    | Except.error e => Except.error e
    | Except.ok w =>
      if w.created = [] then
        Except.ok
          { savedManifest := none, created := [], dirsCreated := w.dirsCreated }
      else
        Except.ok
          { savedManifest :=
              some (updatedManifest manifest configs sigOf runId outputRoot w)
            created := w.created
            dirsCreated := w.dirsCreated }

/-! ### Batch indexer policy constants (`vectorize_lib/utils.py:14-17`,
`vectorize_lib/compact/document_compactor.py:13`) -/

def TOKEN_SAFETY_LIMIT : Nat := 250000
def MAX_TOKENS_PER_REQUEST : Nat := 300000
def MAX_DOCS_PER_REQUEST : Nat := 2048
def CHROMA_DOCUMENT_SIZE_LIMIT : Nat := 16384

/-! ### Batch buffer and `flush_batch` (`vectorize_lib/indexing.py:432-708`)

The pending buffer's parallel `ids` / `token_counts` lists are modelled as
one list of `(id, tokens)` pairs (the source zips them whenever it filters).
`documents`, `metadatas` and `row_numbers` ride along those lists unchanged
and are elided.  The vector store is modelled by the set of ids it holds
(`collectionIds`): `collection.get(ids=…)` returns exactly the already
present ids and `collection.upsert` always succeeds, appending the emitted
id batch to `committed`.  `droppedIds` records the ids skipped with the
hard-limit ERROR log (indexing.py:520-533). -/

structure BatchState where
  pending : List (String × Nat)
  currentTokenTotal : Nat
  effectiveBatchSize : Nat
  committed : List (List String)
  collectionIds : List String
  droppedIds : List String
deriving DecidableEq, Repr

def sumTokens (l : List (String × Nat)) : Nat := (l.map (·.2)).sum

/-- The shrink loop (indexing.py:508-515): lower `n` while the emitted token
total exceeds the limit and `n > 1`. -/
def shrinkN (pending : List (String × Nat)) (tokenLimit : Nat) : Nat → Nat
  | 0 => 0
  | 1 => 1
  | n + 2 =>
    if sumTokens (pending.take (n + 2)) > tokenLimit then
      shrinkN pending tokenLimit (n + 1)
    else n + 2

/-- Upsert the first `n` pending documents and delete them from the buffer
(indexing.py:563-706, success path).  Returns whether the loop exits
(emptied, or remaining under both thresholds). -/
def flushCommit (tokenLimit : Nat) (lb : Nat) (st : BatchState) (n : Nat) :
    Bool × Nat × BatchState :=
  let emitted := st.pending.take n
  let rest := st.pending.drop n
  let st' := { st with
    pending := rest
    currentTokenTotal := sumTokens rest
    committed := st.committed ++ [emitted.map (·.1)]
    collectionIds := st.collectionIds ++ emitted.map (·.1) }
  (rest.isEmpty || (decide (rest.length < lb) && decide (sumTokens rest ≤ tokenLimit)),
    lb, st')

/-- One iteration of the `while ids_ref` loop (indexing.py:459-706).  The
first component is `true` when the loop exits after this iteration. -/
def flushIter (tokenLimit : Nat) (lb : Nat) (st : BatchState) :
    Bool × Nat × BatchState :=
  let n := min st.pending.length lb
  let emitted := st.pending.take n
  if emitted.any (fun p => st.collectionIds.contains p.1) then
    -- pre-flush duplicate check (469-506): delete the already-present ids
    -- among the first `n`, then break if empty else continue
    let kept := emitted.filter (fun p => !st.collectionIds.contains p.1) ++
      st.pending.drop n
    (kept.isEmpty, lb,
      { st with pending := kept, currentTokenTotal := sumTokens kept })
  else
    let n1 := shrinkN st.pending tokenLimit n
    if sumTokens (st.pending.take n1) > tokenLimit then
      -- single-document handling (517-547)
      match st.pending with
      | [] => (true, lb, st)
      | (d, t) :: rest =>
        if t > MAX_TOKENS_PER_REQUEST then
          -- drop and log at ERROR (520-533), then continue
          (rest.isEmpty, lb,
            { st with
              pending := rest
              currentTokenTotal := sumTokens rest
              droppedIds := st.droppedIds ++ [d] })
        else
          -- send alone (534-547); adjust the batch size (549-561)
          let lb' := if 1 < lb then 1 else lb
          flushCommit tokenLimit lb'
            { st with effectiveBatchSize :=
                if 1 < lb then 1 else st.effectiveBatchSize } 1
    else
      let lb' := if n1 < lb then max 1 n1 else lb
      flushCommit tokenLimit lb'
        { st with effectiveBatchSize :=
            if n1 < lb then max 1 n1 else st.effectiveBatchSize } n1

/-- The `while ids_ref` loop.  Every continuing iteration removes at least
one pending document (once `lb ≥ 1`), so fuel `pending.length + 1` runs the
loop to completion; with `lb = 0` the source loops forever and the model
stalls, returning the state unchanged. -/
def flushLoop (tokenLimit : Nat) : Nat → Nat → BatchState → Nat × BatchState
  | 0, lb, st => (lb, st)
  | fuel + 1, lb, st =>
    if st.pending.isEmpty then (lb, st)
    else
      match flushIter tokenLimit lb st with
      | (true, lb', st') => (lb', st')
      | (false, lb', st') => flushLoop tokenLimit fuel lb' st'

/-- `flush_batch` (indexing.py:432-708): returns the final `batch_limit`
together with the new state. -/
def flush_batch (tokenLimit : Nat) (lb : Nat) (st : BatchState) :
    Nat × BatchState :=
  if st.pending.isEmpty then (lb, st)
  else flushLoop tokenLimit (st.pending.length + 1) lb st

def applyFlush (tokenLimit : Nat) (st : BatchState) : BatchState :=
  let r := flush_batch tokenLimit st.effectiveBatchSize st
  { r.2 with effectiveBatchSize := r.1 }

def pushDoc (st : BatchState) (docId : String) (tokens : Nat) : BatchState :=
  { st with
    pending := st.pending ++ [(docId, tokens)]
    currentTokenTotal := st.currentTokenTotal + tokens }

/-- The batching stage of `process_document` (indexing.py:904-959), entered
with the document's final token count: a document over the (soft) token
limit first flushes any pending batch, is appended, and is flushed
immediately; otherwise the buffer is flushed when full or when the token
total would exceed the limit, and the document is appended. -/
def process_document_batching (tokenLimit : Nat) (st : BatchState)
    (docId : String) (tokens : Nat) : BatchState :=
  if tokens > tokenLimit then
    let st1 := if st.pending.isEmpty then st else applyFlush tokenLimit st
    let st2 := pushDoc st1 docId tokens
    applyFlush tokenLimit st2
  else
    let st1 :=
      if !st.pending.isEmpty &&
          (decide (st.pending.length ≥ st.effectiveBatchSize) ||
            decide (st.currentTokenTotal + tokens > tokenLimit)) then
        applyFlush tokenLimit st
      else st
    pushDoc st1 docId tokens

/-! ### Token counting and truncation (`vectorize_lib/utils.py:46-50`,
`vectorize_lib/token_management.py`)

The pluggable encoder is a function from text to its token list
(`encoder.encode`).  Python string slices `text[:mid]` / `text[mid:]` /
`text[-mid:]` act on code points and are modelled with `String.take` /
`String.drop`.  The binary-search loops shrink the `[left, right]` interval
every iteration, so fuel `text.length + 2` is enough; `left` and `right`
are `Int`s because `right` can reach `-1`. -/

def count_tokens (enc : String → List Nat) (text : String) : Nat :=
  if text = "" then 0 else (enc text).length

/-- Plain prefix binary search of `_truncate_end`
(token_management.py:58-76), used when the marker does not fit. -/
def truncEndPlainLoop (enc : String → List Nat) (text : String)
    (maxTokens : Nat) : Nat → Int → Int → String × Nat → String × Nat
  | 0, _, _, best => best
  | fuel + 1, left, right, best =>
    if left ≤ right then
      let mid := (left + right) / 2
      let candidate := text.take mid.toNat
      let tokens := count_tokens enc candidate
      if tokens ≤ maxTokens then
        truncEndPlainLoop enc text maxTokens fuel (mid + 1) right (candidate, tokens)
      else
        truncEndPlainLoop enc text maxTokens fuel left (mid - 1) best
    else best

/-- Marked prefix binary search of `_truncate_end`
(token_management.py:78-94). -/
def truncEndMarkLoop (enc : String → List Nat) (text : String) (target : Nat)
    (sfx : String) (sfxTokens : Nat) :
    Nat → Int → Int → String × Nat → String × Nat
  | 0, _, _, best => best
  | fuel + 1, left, right, best =>
    if left ≤ right then
      let mid := (left + right) / 2
      let candidate := text.take mid.toNat
      let tokens := count_tokens enc candidate
      if tokens ≤ target then
        truncEndMarkLoop enc text target sfx sfxTokens fuel (mid + 1) right
          (candidate ++ sfx, tokens + sfxTokens)
      else
        truncEndMarkLoop enc text target sfx sfxTokens fuel left (mid - 1) best
    else best

/-- `_truncate_end` (token_management.py:51-101). -/
def truncEnd (enc : String → List Nat) (text : String) (maxTokens : Nat) :
    String × Nat × Bool :=
  let sfx := "\n\n[... truncated ...]"
  let sfxTokens := count_tokens enc sfx
  if sfxTokens ≥ maxTokens then
    let best := truncEndPlainLoop enc text maxTokens (text.length + 2) 0
      (text.length : Int) (text, count_tokens enc text)
    (best.1, best.2, true)
  else
    let target := maxTokens - sfxTokens
    let best := truncEndMarkLoop enc text target sfx sfxTokens
      (text.length + 2) 0 (text.length : Int) ("", 0)
    if best.1 = "" then (sfx, sfxTokens, true) else (best.1, best.2, true)

/-- Plain suffix binary search of `_truncate_start`
(token_management.py:111-129). -/
def truncStartPlainLoop (enc : String → List Nat) (text : String)
    (maxTokens : Nat) : Nat → Int → Int → String × Nat → String × Nat
  | 0, _, _, best => best
  | fuel + 1, left, right, best =>
    if left ≤ right then
      let mid := (left + right) / 2
      let candidate := text.drop mid.toNat
      let tokens := count_tokens enc candidate
      if tokens ≤ maxTokens then
        truncStartPlainLoop enc text maxTokens fuel left (mid - 1) (candidate, tokens)
      else
        truncStartPlainLoop enc text maxTokens fuel (mid + 1) right best
    else best

/-- Marked suffix binary search of `_truncate_start`
(token_management.py:131-147). -/
def truncStartMarkLoop (enc : String → List Nat) (text : String) (target : Nat)
    (pfx : String) (pfxTokens : Nat) :
    Nat → Int → Int → String × Nat → String × Nat
  | 0, _, _, best => best
  | fuel + 1, left, right, best =>
    if left ≤ right then
      let mid := (left + right) / 2
      let candidate := text.drop mid.toNat
      let tokens := count_tokens enc candidate
      if tokens ≤ target then
        truncStartMarkLoop enc text target pfx pfxTokens fuel left (mid - 1)
          (pfx ++ candidate, pfxTokens + tokens)
      else
        truncStartMarkLoop enc text target pfx pfxTokens fuel (mid + 1) right best
    else best

/-- `_truncate_start` (token_management.py:104-154). -/
def truncStart (enc : String → List Nat) (text : String) (maxTokens : Nat) :
    String × Nat × Bool :=
  let pfx := "[... truncated ...]\n\n"
  let pfxTokens := count_tokens enc pfx
  if pfxTokens ≥ maxTokens then
    let best := truncStartPlainLoop enc text maxTokens (text.length + 2) 0
      (text.length : Int) (text, count_tokens enc text)
    (best.1, best.2, true)
  else
    let target := maxTokens - pfxTokens
    let best := truncStartMarkLoop enc text target pfx pfxTokens
      (text.length + 2) 0 (text.length : Int) ("", 0)
    if best.1 = "" then (pfx, pfxTokens, true) else (best.1, best.2, true)

/-- Balanced binary search of `_truncate_middle_out`
(token_management.py:177-203). -/
def truncMiddleLoop (enc : String → List Nat) (text : String) (target : Nat)
    (marker : String) (markerTokens : Nat) :
    Nat → Int → Int → String × Nat → String × Nat
  | 0, _, _, best => best
  | fuel + 1, left, right, best =>
    if left ≤ right then
      let mid := (left + right) / 2
      let startPart := text.take mid.toNat
      let endPart := if mid > 0 then text.drop (text.length - mid.toNat) else ""
      let startTokens := count_tokens enc startPart
      let endTokens := if endPart = "" then 0 else count_tokens enc endPart
      let total := startTokens + endTokens
      if total ≤ target then
        truncMiddleLoop enc text target marker markerTokens fuel (mid + 1) right
          (startPart ++ marker ++ endPart, total + markerTokens)
      else
        truncMiddleLoop enc text target marker markerTokens fuel left (mid - 1) best
    else best

/-- `_truncate_middle_out` (token_management.py:157-209). -/
def truncMiddleOut (enc : String → List Nat) (text : String) (maxTokens : Nat) :
    String × Nat × Bool :=
  let marker := "\n\n[... truncated ...]\n\n"
  let markerTokens := count_tokens enc marker
  if markerTokens ≥ maxTokens then truncEnd enc text maxTokens
  else
    let target := maxTokens - markerTokens
    let best := truncMiddleLoop enc text target marker markerTokens
      (text.length + 2) 0 ((text.length / 2 : Nat) : Int) ("", markerTokens)
    if best.1 = "" then (marker, markerTokens, true)
    else (best.1, best.2, true)

/-- Python `\s` on ASCII text (the model restricts `str.strip` and the
sentence regex to ASCII whitespace). -/
def isPySpace (c : Char) : Bool :=
  c = ' ' || c = '\t' || c = '\n' || c = '\r' || c = '\u000B' || c = '\u000C'

def isSentEnd (c : Char) : Bool := c = '.' || c = '!' || c = '?'

def pyStrip (s : String) : String :=
  String.mk (((s.data.dropWhile isPySpace).reverse.dropWhile isPySpace).reverse)

/-- `re.split(r"(?<=[.!?])\s+", text)` (token_management.py:289-295): split
at every maximal whitespace run whose preceding character is `.`, `!` or
`?`. -/
def sentSplitAux (enc : Unit) : Nat → Char → List Char → List Char → List String
  | _, _, acc, [] => [String.mk acc.reverse]
  | 0, _, acc, rest => [String.mk (acc.reverse ++ rest)]
  | fuel + 1, prev, acc, c :: rest =>
    if isSentEnd prev && isPySpace c then
      String.mk acc.reverse ::
        sentSplitAux enc fuel ' ' [] (rest.dropWhile isPySpace)
    else sentSplitAux enc fuel c (c :: acc) rest

def split_sentences (text : String) : List String :=
  ((sentSplitAux () (text.length + 1) ' ' [] text.data).map pyStrip).filter
    (· ≠ "")

/-- Greedy start-sentence accumulation (token_management.py:250-257). -/
def greedyStart (enc : String → List Nat) (halfAvail : Nat) :
    List String → String → List String → List String × String
  | [], cur, acc => (acc, cur)
  | s :: rest, cur, acc =>
    let cand := cur ++ s ++ " "
    if count_tokens enc cand ≤ halfAvail then
      greedyStart enc halfAvail rest cand (acc ++ [s])
    else (acc, cur)

/-- Greedy end-sentence accumulation over the reversed sentence list
(token_management.py:265-272). -/
def greedyEnd (enc : String → List Nat) (remaining : Int) :
    List String → String → List String → List String
  | [], _, acc => acc
  | s :: rest, cur, acc =>
    let cand := s ++ " " ++ cur
    if (count_tokens enc cand : Int) ≤ remaining then
      greedyEnd enc remaining rest cand (s :: acc)
    else acc

/-- `_truncate_by_sentences` (token_management.py:212-286). -/
def truncSentences (enc : String → List Nat) (text : String) (maxTokens : Nat) :
    String × Nat × Bool :=
  let marker := "\n\n[... truncated ...]\n\n"
  let markerTokens := count_tokens enc marker
  if markerTokens ≥ maxTokens || maxTokens < 20 then
    truncMiddleOut enc text maxTokens
  else
    let sentences := split_sentences text
    if sentences.length ≤ 2 then truncMiddleOut enc text maxTokens
    else
      let avail := maxTokens - markerTokens
      let startSentences := (greedyStart enc (avail / 2) sentences "" []).1
      let startText := pyJoin " " startSentences
      let startTokens := count_tokens enc startText
      let remaining : Int := (avail : Int) - startTokens
      let endSentences0 := greedyEnd enc remaining sentences.reverse "" []
      let endSentences := endSentences0.filter fun s => !startSentences.contains s
      if startSentences ≠ [] || endSentences ≠ [] then
        let result := startText ++ marker ++ pyJoin " " endSentences
        let tokens := count_tokens enc result
        if tokens ≤ maxTokens then (result, tokens, true)
        else truncMiddleOut enc text maxTokens
      else truncMiddleOut enc text maxTokens

/-- `truncate_text_intelligently` (token_management.py:11-48).  The
`preserve_start` / `preserve_end` parameters are never read by the
truncation bodies and are elided. -/
def truncate_text_intelligently (enc : String → List Nat) (text : String)
    (maxTokens : Nat) (strategy : String) : String × Nat × Bool :=
  let cur := count_tokens enc text
  if cur ≤ maxTokens then (text, cur, false)
  else if strategy = "end" then truncEnd enc text maxTokens
  else if strategy = "start" then truncStart enc text maxTokens
  else if strategy = "sentences" then truncSentences enc text maxTokens
  else truncMiddleOut enc text maxTokens

def toLowerStr (s : String) : String := String.mk (s.data.map Char.toLower)

/-- Occurrence of `needle` at any position of `hay`. -/
def subListSearch (needle : List Char) : List Char → Bool
  | [] => needle.isEmpty
  | c :: rest => needle.isPrefixOf (c :: rest) || subListSearch needle rest

/-- Python substring containment `needle in hay`. -/
def containsSub (hay needle : String) : Bool :=
  subListSearch needle.data hay.data

/-- `suggest_truncation_strategy` (token_management.py:298-332). -/
def suggest_truncation_strategy (text modelName : String)
    (semanticFields : List String) : String :=
  let textLower := toLowerStr text
  let lineCount := text.data.count '\n'
  if modelName = "Table" || containsSub (textLower.take 200) "table" then "end"
  else if semanticFields.any
      (fun f => f = "documentation" || f = "help_text" || f = "description") then
    "sentences"
  else if lineCount > 50 &&
      (containsSub textLower "field" || containsSub textLower "parameter") then
    "middle_out"
  else "middle_out"

/-! ### Document metadata and the token-limit stage of `process_document`
(`vectorize_lib/indexing.py:837-902`) -/

inductive MValue
  | n : Nat → MValue
  | b : Bool → MValue
  | s : String → MValue
deriving DecidableEq, Repr

abbrev Metadata := List (String × MValue)

/-- The token-counting and truncation stage of `process_document`
(indexing.py:837-902), entered with the post-compaction text.  Returns
`none` when the document is skipped (the `was_truncated = False` branch,
indexing.py:895-902), otherwise the text, token count and metadata handed to
the batching stage.  `int(embedding_token_limit * 0.95)` is modelled as
`embeddingLimit * 95 / 100`, which agrees with the Python float expression
at the default `8191` (both `7781`) and at the instances analysed here. -/
def process_document_token_stage (enc : String → List Nat)
    (embeddingLimit : Nat) (defaultStrategy : String)
    (modelConfigStrategy : Option String) (semanticFields : List String)
    (modelName : String) (text : String) (metadata : Metadata) :
    Option (String × Nat × Metadata) :=
  let tokenCount := count_tokens enc text
  if tokenCount > embeddingLimit then
    let strategy1 :=
      match modelConfigStrategy with
      | none => defaultStrategy
      | some s => if s = "auto" then defaultStrategy else s
    let strategy :=
      if strategy1 = "auto" then
        suggest_truncation_strategy text modelName semanticFields
      else strategy1
    let targetTokens := embeddingLimit * 95 / 100
    let r := truncate_text_intelligently enc text targetTokens strategy
    if r.2.2 then
      -- indexing.py:889-894: `token_count` is overwritten with
      -- `final_tokens` BEFORE `metadata["original_tokens"]` is assigned
      let tokenCount := r.2.1
      let md := assocSet (assocSet metadata "truncated" (MValue.b true))
        "original_tokens" (MValue.n tokenCount)
      some (r.1, tokenCount, md)
    else none
  else some (text, tokenCount, metadata)

/-! ### Fan-out query result merging
(`vectorize_lib/query_client.py:235-316`)

Distances are `WithTop ℚ`: the absent-distances padding `float("inf")` is
`⊤`.  A per-collection `QueryResult` carries per-query-index parallel lists;
`Option` models the `None` the provider may return for a whole section.
Python's `list.sort(key=…)` is a stable ascending sort, modelled by
`List.insertionSort` on the distance component (Mathlib's `orderedInsert`
places the inserted element before the first not-smaller element, which is
exactly stable insertion from the left). -/

abbrev Dist := WithTop ℚ

structure MergeTuple where
  dist : Dist
  docId : String
  document : String
  metadata : List (String × String)
deriving DecidableEq

structure QueryResultModel where
  ids : List (List String)
  distances : Option (List (List Dist))
  documents : Option (List (List String))
  metadatas : Option (List (List (List (String × String))))
deriving DecidableEq

structure MergedResult where
  ids : List (List String)
  documents : List (List String)
  metadatas : List (List (List (String × String)))
  distances : List (List Dist)
deriving DecidableEq

/-- The tuples one collection result contributes at one query index
(query_client.py:267-303): skip results with falsy `ids`; missing or short
`distances` / `documents` / `metadatas` sections are padded with
`float("inf")` / `""` / `{}`. -/
def collectTuplesOne (q : Nat) (r : QueryResultModel) : List MergeTuple :=
  if r.ids = [] then []
  else
    let ids := if q < r.ids.length then r.ids.getD q [] else []
    let dists :=
      match r.distances with
      | some ds => if q < ds.length then ds.getD q [] else List.replicate ids.length ⊤
      | none => List.replicate ids.length ⊤
    let docs :=
      match r.documents with
      | some ds => if q < ds.length then ds.getD q [] else List.replicate ids.length ""
      | none => List.replicate ids.length ""
    let metas :=
      match r.metadatas with
      | some ms => if q < ms.length then ms.getD q [] else List.replicate ids.length []
      | none => List.replicate ids.length []
    (List.range ids.length).map fun i =>
      { dist := dists.getD i ⊤
        docId := ids.getD i ""
        document := docs.getD i ""
        metadata := metas.getD i [] }

def collectTuples (results : List QueryResultModel) (q : Nat) :
    List MergeTuple :=
  (results.map (collectTuplesOne q)).flatten

def tupleLE (a b : MergeTuple) : Prop := a.dist ≤ b.dist

instance : DecidableRel tupleLE := fun a b =>
  inferInstanceAs (Decidable (a.dist ≤ b.dist))

/-- Python `query_results.sort(key=lambda x: x[0])`: stable ascending sort
by distance. -/
def pySortByDistance (l : List MergeTuple) : List MergeTuple :=
  l.insertionSort tupleLE

/-- `_merge_query_results` (query_client.py:235-316). -/
def merge_query_results (results : List QueryResultModel) (nResults : Nat)
    (numQueries : Nat) : MergedResult :=
  let tops := (List.range numQueries).map fun q =>
    (pySortByDistance (collectTuples results q)).take nResults
  { ids := tops.map fun ts => ts.map (·.docId)
    documents := tops.map fun ts => ts.map (·.document)
    metadatas := tops.map fun ts => ts.map (·.metadata)
    distances := tops.map fun ts => ts.map (·.dist) }

/-! ### Invariant predicates used by the theorems -/

/-- The relation holding between consecutive schema registry entries of one
record type: versions never decrease, and they strictly increase exactly
when the signature changed. -/
def SchemaMono (a b : SchemaEntry) : Prop :=
  a.version ≤ b.version ∧ (a.version < b.version ↔ b.signature ≠ a.signature)

/-- Partition naming invariant of a writer started at `startIdx`: the
finalised partitions carry the consecutive indices
`startIdx, …, startIdx + count - 1` and the open partition (if any) the next
index. -/
def WriterNamesInv (startIdx : Nat) (st : WriterState) : Prop :=
  st.created.map CreatedPartition.name =
    (List.range' startIdx st.created.length).map partitionNameOf ∧
  (∀ p, st.current = some p →
    st.partitionIndex = startIdx + st.created.length + 1 ∧
    1 ≤ p.rows ∧ p.name = partitionNameOf (startIdx + st.created.length)) ∧
  (st.current = none → st.partitionIndex = startIdx + st.created.length)

/-- Row-cap invariant of the writer with directory size `d`: every
finalised partition is non-empty with at most `d` total rows, each record
type's count bounded by the partition's row total; the open partition obeys
the same bounds. -/
def WriterCapInv (d : Nat) (st : WriterState) : Prop :=
  st.directorySize = d ∧
  (∀ c ∈ st.created,
    1 ≤ c.rows ∧ c.rows ≤ d ∧ ∀ mc ∈ c.models, mc.2 ≤ c.rows) ∧
  (∀ p, st.current = some p →
    p.rows ≤ d ∧ ∀ mc ∈ p.modelCounts, mc.2 ≤ p.rows)

/-! ### Concrete example inputs (used to instantiate the theorems) -/

/-- A manifest whose only partition is stale, with its CSV still on disk. -/
def staleOnlyManifest : Manifest :=
  { partitions :=
      [{ name := "partition_00000"
         models := [("Table", ⟨"p0/Table.csv", 1⟩)]
         rows := 1
         stale := true
         staleReason := some "schema-change"
         replaces := []
         replacedBy := [] }]
    modelSchemas := [("Table", ⟨"sig0", 1⟩)]
    runs := [] }

def staleOnlyFs : FileSys :=
  [("p0/Table.csv", [["h1", "h2"], ["a", "b"]])]

/-- A manifest holding one non-stale partition whose index is 5, its
signature matching the current one. -/
def gapManifest : Manifest :=
  { partitions :=
      [{ name := "partition_00005"
         models := [("Table", ⟨"p5/Table.csv", 1⟩)]
         rows := 1
         stale := false
         staleReason := none
         replaces := []
         replacedBy := [] }]
    modelSchemas := [("Table", ⟨"sig1", 1⟩)]
    runs := [] }

def coldManifest : Manifest := { partitions := [], modelSchemas := [], runs := [] }

def tableOnlyConfigs : List (String × PrepModelConfig) :=
  [("Table", ⟨some "t.csv", [], []⟩)]

def oneTableRow : String → List (List (String × Option String)) :=
  fun m => if m = "Table" then [[("h1", some "a")]] else []

/-- The outcome of a cold run ingesting one `Table` row. -/
def coldRunOut : RunOutcome :=
  (write_partitions [] coldManifest tableOnlyConfigs 2 (fun _ => "sig1")
    oneTableRow "r1" "/o").toOption.getD
    { savedManifest := none, created := [], dirsCreated := [] }

/-- Write sequences exercising the partition writer's rollover condition:
`(model_name, headers, row_values)` triples. -/
def twoTypeWrites2 : List (String × List String × List String) :=
  [("Table", ["h"], ["a"]), ("Field", ["h"], ["b"])]

def twoTypeWrites3 : List (String × List String × List String) :=
  twoTypeWrites2 ++ [("Table", ["h"], ["c"])]

/-- The writer state after the three writes above with `directory_size = 2`. -/
def twoTypeRunOut : WriterState :=
  (runWrites 2 twoTypeWrites3).toOption.getD (initWriter 0 0)

/-- A one-token-per-character tokeniser: each character encodes to one
token, so token counts equal character counts. -/
def charEnc : String → List Nat := fun s => s.data.map Char.toNat

/-- A forty-character (hence forty-token under `charEnc`) document. -/
def fortyAs : String := String.mk (List.replicate 40 'a')

instance : IsTotal MergeTuple tupleLE := ⟨fun a b => le_total a.dist b.dist⟩

instance : IsTrans MergeTuple tupleLE := ⟨fun _ _ _ hab hbc => le_trans hab hbc⟩

/-- A per-collection query result: two hits at distances 2 and 1. -/
def wr1 : QueryResultModel :=
  { ids := [["a", "b"]], distances := some [[((2 : ℚ) : Dist), ((1 : ℚ) : Dist)]],
    documents := some [["da", "db"]], metadatas := some [[[("k", "v")], []]] }

/-- A second collection's result: one hit at distance 2, tying with `"a"`
of `wr1` to exercise the stable tie-break. -/
def wr2 : QueryResultModel :=
  { ids := [["c"]], distances := some [[((2 : ℚ) : Dist)]],
    documents := some [["dc"]], metadatas := some [[[]]] }

/-- A batch state with one small pending document, exercising the
single-document flush paths. -/
def w9st : BatchState :=
  { pending := [("a", 2)], currentTokenTotal := 2, effectiveBatchSize := 1,
    committed := [], collectionIds := [], droppedIds := [] }

/-! ## Theorems -/

/-! ### `pyJoin` algebra -/

theorem pyJoin_foldl (d : String) :
    ∀ (ys : List String) (a : String), ys ≠ [] →
      ys.foldl (fun acc s => acc ++ d ++ s) a = a ++ d ++ pyJoin d ys := by
  intro ys
  induction ys with
  | nil => intro a h; exact absurd rfl h
  | cons y ys ih =>
    intro a _
    cases ys with
    | nil => simp [pyJoin]
    | cons y' ys' =>
      show List.foldl (fun acc s => acc ++ d ++ s) (a ++ d ++ y) (y' :: ys') = _
      rw [ih (a ++ d ++ y) (by simp)]
      have h2 : pyJoin d (y :: y' :: ys') = y ++ d ++ pyJoin d (y' :: ys') := by
        show List.foldl (fun acc s => acc ++ d ++ s) y (y' :: ys') = _
        rw [ih y (by simp)]
      rw [h2]
      simp [String.append_assoc]

theorem pyJoin_append (d : String) (xs ys : List String) (hx : xs ≠ [])
    (hy : ys ≠ []) :
    pyJoin d (xs ++ ys) = pyJoin d xs ++ d ++ pyJoin d ys := by
  cases xs with
  | nil => exact absurd rfl hx
  | cons x xs' =>
    show (xs' ++ ys).foldl (fun acc s => acc ++ d ++ s) x = _
    rw [List.foldl_append]
    cases xs' with
    | nil =>
      simp only [List.foldl_nil]
      rw [pyJoin_foldl d ys x hy]
      rfl
    | cons x' xs'' =>
      rw [pyJoin_foldl d ys _ hy]
      rfl

theorem pyJoin_collapse (d : String) (a m t : List String) (hm : m ≠ []) :
    pyJoin d (a ++ [pyJoin d m] ++ t) = pyJoin d (a ++ m ++ t) := by
  rcases List.eq_nil_or_concat a with ha | _
  · subst ha
    rcases List.eq_nil_or_concat t with ht | _
    · subst ht; simp [pyJoin]
    · have ht : t ≠ [] := by rintro rfl; simp_all
      simp only [List.nil_append]
      rw [pyJoin_append d [pyJoin d m] t (by simp) ht,
        pyJoin_append d m t hm ht]
      rfl
  · have ha : a ≠ [] := by rintro rfl; simp_all
    rcases List.eq_nil_or_concat t with ht | _
    · subst ht
      simp only [List.append_nil]
      rw [pyJoin_append d a [pyJoin d m] ha (by simp),
        pyJoin_append d a m ha hm]
      rfl
    · have ht : t ≠ [] := by rintro rfl; simp_all
      rw [List.append_assoc, pyJoin_append d a ([pyJoin d m] ++ t) ha (by simp),
        pyJoin_append d [pyJoin d m] t (by simp) ht,
        List.append_assoc, pyJoin_append d a (m ++ t) ha (by simp [hm]),
        pyJoin_append d m t hm ht]
      show _ = _
      simp [String.append_assoc]
      rfl

theorem list_split3 {α : Type} (l : List α) (a b : Nat) (hab : a ≤ b) :
    l.take a ++ ((l.take b).drop a ++ l.drop b) = l := by
  have h1 : (l.take b).take a = l.take a := by
    rw [List.take_take, Nat.min_eq_left hab]
  calc l.take a ++ ((l.take b).drop a ++ l.drop b)
      = ((l.take b).take a ++ (l.take b).drop a) ++ l.drop b := by
        rw [h1]; simp [List.append_assoc]
    _ = l.take b ++ l.drop b := by rw [List.take_append_drop]
    _ = l := List.take_append_drop b l

/-- **C10.** `fix_malformed_values` either returns its input unchanged or a
list of exactly `expected_columns` cells, and in both cases joining the
result with the delimiter reproduces the join of the input cells: no cell
content is lost or reordered. -/
theorem fix_malformed_values_preserves_content (values : List String)
    (ec mc : Option Int) (d : String) :
    (fix_malformed_values values ec mc d = values ∨
      ∃ e : Int, ec = some e ∧
        ((fix_malformed_values values ec mc d).length : Int) = e) ∧
    pyJoin d (fix_malformed_values values ec mc d) = pyJoin d values := by
  match ec, mc with
  | none, _ => exact ⟨Or.inl rfl, rfl⟩
  | some e, none => exact ⟨Or.inl rfl, rfl⟩
  | some e, some m =>
    rw [fix_malformed_values]
    by_cases h1 : e ≤ 0 ∨ (values.length : Int) ≤ e
    · rw [if_pos h1]; exact ⟨Or.inl rfl, rfl⟩
    · rw [if_neg h1]
      push_neg at h1
      obtain ⟨he, hlen⟩ := h1
      dsimp only
      set n := values.length with hn
      set target : Int := max 0 (min (e - 1) (m - 1)) with htarget
      have htgt0 : 0 ≤ target := le_max_left _ _
      have htgte : target ≤ e - 1 := by
        have := min_le_left (e - 1) (m - 1)
        omega
      set lc : Nat := target.toNat with hlc
      set tc : Nat := (max 0 (e - target - 1)).toNat with htc
      have htcval : (tc : Int) = e - target - 1 := by
        rw [htc]
        rw [Int.toNat_of_nonneg (by omega)]
        omega
      have hlcval : (lc : Int) = target := Int.toNat_of_nonneg htgt0
      have hen : e < (n : Int) := hlen
      have hsumn : lc + tc < n := by
        have h5 : ((lc : Int)) + tc < n := by omega
        exact_mod_cast h5
      have htrail :
          (if tc ≠ 0 then values.drop (n - tc) else []) =
            values.drop (n - tc) := by
        by_cases h : tc = 0
        · simp [h, hn]
        · simp [h]
      rw [htrail]
      have htraillen : (values.drop (n - tc)).length = tc := by
        rw [List.length_drop]
        omega
      rw [htraillen]
      have hleadlen : (values.take lc).length = lc := by
        rw [List.length_take]
        omega
      rw [hleadlen]
      set middle := (values.take (n - tc)).drop lc with hmid
      have hmidlen : middle.length = n - tc - lc := by
        rw [hmid, List.length_drop, List.length_take]
        omega
      have hmidne : middle ≠ [] := by
        intro hcontra
        rw [hcontra] at hmidlen
        simp at hmidlen
        omega
      have hdecomp :
          values.take lc ++ (middle ++ values.drop (n - tc)) = values := by
        rw [hmid, hn]
        exact list_split3 values lc (values.length - tc) (by omega)
      have hjoin :
          pyJoin d (values.take lc ++ [pyJoin d middle] ++
            values.drop (n - tc)) = pyJoin d values := by
        rw [pyJoin_collapse d _ _ _ hmidne]
        rw [List.append_assoc]
        rw [hdecomp]
      by_cases h2 :
          (((values.take lc ++ [pyJoin d middle] ++
            values.drop (n - tc)).length : Int) = e)
      · rw [if_pos h2]
        exact ⟨Or.inr ⟨e, rfl, h2⟩, hjoin⟩
      · rw [if_neg h2]
        exact ⟨Or.inl rfl, rfl⟩

/-! ### Schema version propagation (C6) -/

theorem schemaStep_signature (prev : Option SchemaEntry) (sig : String) :
    (schemaStep prev sig).1.signature = sig := by
  cases prev with
  | none => rfl
  | some p =>
    rw [schemaStep]
    split <;> rfl

theorem schemaStep_mono (prev : SchemaEntry) (sig : String) :
    SchemaMono prev (schemaStep (some prev) sig).1 := by
  rw [schemaStep]
  by_cases h : prev.signature ≠ sig
  · rw [if_pos h]
    exact ⟨Nat.le_succ _, by simpa using fun hs => (h hs.symm).elim⟩
  · rw [if_neg h]
    push_neg at h
    exact ⟨le_refl _, by simp [h]⟩

theorem schemaTraceAux_head (prev : Option SchemaEntry) (sig : String)
    (rest : List String) :
    (schemaTraceAux prev (sig :: rest)).head? = some (schemaStep prev sig).1 :=
  rfl

theorem schemaTraceAux_chain (sigs : List String) :
    ∀ prev : Option SchemaEntry,
      List.Chain' SchemaMono (schemaTraceAux prev sigs) := by
  induction sigs with
  | nil => intro prev; exact List.chain'_nil
  | cons sig rest ih =>
    intro prev
    rw [schemaTraceAux]
    apply List.chain'_cons'.mpr
    constructor
    · intro h hh
      cases rest with
      | nil => simp [schemaTraceAux] at hh
      | cons s r =>
        rw [schemaTraceAux_head] at hh
        cases hh
        exact schemaStep_mono _ _
    · exact ih (some (schemaStep prev sig).1)

theorem schemaTraceAux_signatures (sigs : List String) :
    ∀ prev : Option SchemaEntry,
      (schemaTraceAux prev sigs).map SchemaEntry.signature = sigs := by
  induction sigs with
  | nil => intro prev; rfl
  | cons sig rest ih =>
    intro prev
    rw [schemaTraceAux]
    simp only [List.map_cons]
    rw [schemaStep_signature, ih]

/-- **C6.** Per run: no prior signature gives version 1; an unchanged
signature keeps the version; a changed signature bumps it by one and puts
the record type into the modified set — and `write_partitions` computes its
schema entries by exactly this step for every record type it considers.
Across successive runs the stored version is monotonically non-decreasing
and strictly increases iff the signature changed. -/
theorem schema_version_propagation :
    (∀ sig : String, (schemaStep none sig).1 = ⟨sig, 1⟩) ∧
    (∀ (p : SchemaEntry) (sig : String),
      ((schemaStep (some p) sig).1.version =
        if sig = p.signature then p.version else p.version + 1) ∧
      ((schemaStep (some p) sig).2 = true ↔ sig ≠ p.signature) ∧
      SchemaMono p (schemaStep (some p) sig).1) ∧
    (∀ (manifest : Manifest) (configs : List (String × PrepModelConfig))
        (sigOf : String → String) (mname : String),
      mname ∈ modelsToConsider manifest configs →
        (mname, schemaStep (manifest.modelSchemas.lookup mname) (sigOf mname)) ∈
          newSchemaEntries manifest configs sigOf) ∧
    (∀ sigs : List String,
      (schemaTrace sigs).map SchemaEntry.signature = sigs ∧
      List.Chain' SchemaMono (schemaTrace sigs) ∧
      ∀ e ∈ (schemaTrace sigs).head?, e.version = 1) := by
  refine ⟨fun sig => rfl, fun p sig => ⟨?_, ?_, schemaStep_mono p sig⟩,
    ?_, fun sigs => ⟨schemaTraceAux_signatures sigs none,
      schemaTraceAux_chain sigs none, ?_⟩⟩
  · rw [schemaStep]
    by_cases h : p.signature ≠ sig
    · rw [if_pos h, if_neg (fun hs => h hs.symm)]
    · rw [if_neg h]
      push_neg at h
      rw [if_pos h.symm]
  · rw [schemaStep]
    by_cases h : p.signature ≠ sig
    · rw [if_pos h]
      simpa using fun hs => (h hs.symm).elim
    · rw [if_neg h]
      push_neg at h
      simp [h]
  · intro manifest configs sigOf mname hm
    exact List.mem_map.mpr ⟨mname, hm, rfl⟩
  · intro e he
    cases sigs with
    | nil => simp [schemaTrace, schemaTraceAux] at he
    | cons s r =>
      rw [schemaTrace, schemaTraceAux_head] at he
      cases he
      rfl

/-! ### Seen-digest hydration (C4) -/

theorem seenAdd_subset (s : List (String × List String)) (m d m' x : String)
    (h : x ∈ seenGet s m') : x ∈ seenGet (seenAdd s m d) m' := by
  induction s with
  | nil => simp [seenGet, List.lookup] at h
  | cons kv rest ih =>
    obtain ⟨k, ds⟩ := kv
    rw [seenAdd]
    by_cases hk : k = m
    · rw [if_pos hk]
      by_cases hk' : m' = k
      · subst hk'
        simp only [seenGet, List.lookup, beq_self_eq_true] at h ⊢
        simp only [Option.getD_some] at h ⊢
        by_cases hd : d ∈ ds
        · simpa [hd] using h
        · simp only [hd, if_neg]
          exact List.mem_append_left _ h
      · simp only [seenGet, List.lookup, (by simpa using hk' : (m' == k) = false)] at h ⊢
        exact h
    · rw [if_neg hk]
      by_cases hk' : m' = k
      · subst hk'
        simpa [seenGet, List.lookup] using h
      · simp only [seenGet, List.lookup,
          (by simpa using hk' : (m' == k) = false)] at h ⊢
        exact ih h

theorem seenAdd_self (s : List (String × List String)) (m d : String) :
    d ∈ seenGet (seenAdd s m d) m := by
  induction s with
  | nil => simp [seenAdd, seenGet, List.lookup]
  | cons kv rest ih =>
    obtain ⟨k, ds⟩ := kv
    rw [seenAdd]
    by_cases hk : k = m
    · subst hk
      simp only [if_pos rfl, seenGet, List.lookup, beq_self_eq_true,
        Option.getD_some]
      by_cases hd : d ∈ ds
      · simp [hd]
      · simp [hd]
    · rw [if_neg hk]
      simpa [seenGet, List.lookup, (by simpa using (Ne.symm hk) : (m == k) = false)]
        using ih

theorem seenAddMany_subset (ds : List String)
    (s : List (String × List String)) (m m' x : String)
    (h : x ∈ seenGet s m') : x ∈ seenGet (seenAddMany s m ds) m' := by
  induction ds generalizing s with
  | nil => exact h
  | cons d rest ih =>
    show x ∈ seenGet (seenAddMany (seenAdd s m d) m rest) m'
    exact ih _ (seenAdd_subset s m d m' x h)

theorem seenAddMany_mem (ds : List String)
    (s : List (String × List String)) (m d : String) :
    d ∈ ds → d ∈ seenGet (seenAddMany s m ds) m := by
  induction ds generalizing s with
  | nil => intro h; cases h
  | cons d' rest ih =>
    intro h
    show d ∈ seenGet (seenAddMany (seenAdd s m d') m rest) m
    rcases List.mem_cons.mp h with h1 | h1
    · subst h1
      exact seenAddMany_subset rest _ m m d (seenAdd_self s m d)
    · exact ih _ h1

theorem loadModelHashes_subset (fs : FileSys)
    (seen : List (String × List String)) (mn : String) (info : ModelInfo)
    (m' x : String) (h : x ∈ seenGet seen m') :
    x ∈ seenGet (loadModelHashes fs seen mn info) m' := by
  rw [loadModelHashes]
  cases hread : fsRead fs info.path with
  | none => exact h
  | some rows =>
    cases rows with
    | nil => exact h
    | cons headers rest =>
      show x ∈ seenGet (if headers = [] then seen
        else seenAddMany seen mn
          (rest.map fun row => digestOfCsvRow headers row)) m'
      by_cases hh : headers = []
      · rw [if_pos hh]; exact h
      · rw [if_neg hh]
        exact seenAddMany_subset _ _ _ _ _ h

theorem loadModelHashes_mem (fs : FileSys)
    (seen : List (String × List String)) (mn : String) (info : ModelInfo)
    (headers : List String) (rows : List (List String))
    (hread : fsRead fs info.path = some (headers :: rows))
    (hh : headers ≠ []) (row : List String) (hrow : row ∈ rows) :
    digestOfCsvRow headers row ∈
      seenGet (loadModelHashes fs seen mn info) mn := by
  rw [loadModelHashes, hread]
  show digestOfCsvRow headers row ∈ seenGet (if headers = [] then seen
    else seenAddMany seen mn
      (rows.map fun r => digestOfCsvRow headers r)) mn
  rw [if_neg hh]
  exact seenAddMany_mem _ _ _ _ (List.mem_map.mpr ⟨row, hrow, rfl⟩)

theorem modelsFold_subset (fs : FileSys)
    (models : List (String × ModelInfo))
    (seen : List (String × List String)) (m' x : String)
    (h : x ∈ seenGet seen m') :
    x ∈ seenGet
      (models.foldl (fun s mi => loadModelHashes fs s mi.1 mi.2) seen) m' := by
  induction models generalizing seen with
  | nil => exact h
  | cons mi rest ih =>
    simp only [List.foldl_cons]
    exact ih _ (loadModelHashes_subset fs seen mi.1 mi.2 m' x h)

theorem modelsFold_mem (fs : FileSys) (models : List (String × ModelInfo))
    (seen : List (String × List String)) (mn : String) (info : ModelInfo)
    (headers : List String) (rows : List (List String))
    (hread : fsRead fs info.path = some (headers :: rows))
    (hh : headers ≠ []) (row : List String) (hrow : row ∈ rows) :
    (mn, info) ∈ models →
      digestOfCsvRow headers row ∈
        seenGet
          (models.foldl (fun s mi => loadModelHashes fs s mi.1 mi.2) seen) mn := by
  induction models generalizing seen with
  | nil => intro hmem; cases hmem
  | cons mi rest ih =>
    intro hmem
    simp only [List.foldl_cons]
    rcases List.mem_cons.mp hmem with h1 | h1
    · subst h1
      exact modelsFold_subset fs rest _ mn _
        (loadModelHashes_mem fs seen mn info headers rows hread hh row hrow)
    · exact ih _ h1

theorem partsFold_subset (fs : FileSys) (parts : List PartitionEntry)
    (seen : List (String × List String)) (m' x : String)
    (h : x ∈ seenGet seen m') :
    x ∈ seenGet
      (parts.foldl (fun s entry =>
        entry.models.foldl (fun s2 mi => loadModelHashes fs s2 mi.1 mi.2) s)
        seen) m' := by
  induction parts generalizing seen with
  | nil => exact h
  | cons e rest ih =>
    simp only [List.foldl_cons]
    exact ih _ (modelsFold_subset fs e.models seen m' x h)

theorem partsFold_mem (fs : FileSys) (parts : List PartitionEntry)
    (seen : List (String × List String)) (entry : PartitionEntry)
    (mn : String) (info : ModelInfo) (headers : List String)
    (rows : List (List String)) (hmi : (mn, info) ∈ entry.models)
    (hread : fsRead fs info.path = some (headers :: rows))
    (hh : headers ≠ []) (row : List String) (hrow : row ∈ rows) :
    entry ∈ parts →
      digestOfCsvRow headers row ∈
        seenGet
          (parts.foldl (fun s e =>
            e.models.foldl (fun s2 mi => loadModelHashes fs s2 mi.1 mi.2) s)
            seen) mn := by
  induction parts generalizing seen with
  | nil => intro hentry; cases hentry
  | cons e rest ih =>
    intro hentry
    simp only [List.foldl_cons]
    rcases List.mem_cons.mp hentry with h1 | h1
    · subst h1
      exact partsFold_subset fs rest _ mn _
        (modelsFold_mem fs entry.models seen mn info headers rows hread hh
          row hrow hmi)
    · exact ih _ h1

/-- **C4 (amended).** Digest hydration reads the CSV of every partition
entry of the manifest — it never consults the `stale` flag — so every
on-disk row of every recorded partition, stale or not, contributes its
digest to the seen sets. -/
theorem load_existing_hashes_reads_all_partitions :
    (∀ (fs : FileSys) (manifest : Manifest),
      load_existing_hashes fs manifest =
        load_existing_hashes fs (clearStale manifest)) ∧
    (∀ (fs : FileSys) (manifest : Manifest) (entry : PartitionEntry)
        (mn : String) (info : ModelInfo) (headers : List String)
        (rows : List (List String)),
      entry ∈ manifest.partitions → (mn, info) ∈ entry.models →
      fsRead fs info.path = some (headers :: rows) → headers ≠ [] →
      ∀ row ∈ rows,
        digestOfCsvRow headers row ∈
          seenGet (load_existing_hashes fs manifest) mn) := by
  constructor
  · intro fs manifest
    rw [load_existing_hashes, load_existing_hashes, clearStale]
    rw [List.foldl_map]
  · intro fs manifest entry mn info headers rows hentry hmi hread hh row hrow
    rw [load_existing_hashes]
    exact partsFold_mem fs manifest.partitions [] entry mn info headers rows
      hmi hread hh row hrow hentry

/-- **C4 (counterexample).** A manifest whose every partition is stale still
hydrates a non-empty seen set — contradicting hydration "from exactly the
non-stale partitions", under which the seen sets would be empty and the row
re-ingestable. -/
theorem stale_partition_rows_still_hydrated :
    (∀ e ∈ staleOnlyManifest.partitions, e.stale = true) ∧
    seenGet (load_existing_hashes staleOnlyFs staleOnlyManifest) "Table" =
      [digestOfCsvRow ["h1", "h2"] ["a", "b"]] ∧
    seenGet (load_existing_hashes staleOnlyFs staleOnlyManifest) "Table" ≠ [] := by
  refine ⟨by decide, rfl, fun hcontra => ?_⟩
  have h2 : seenGet (load_existing_hashes staleOnlyFs staleOnlyManifest)
      "Table" = [digestOfCsvRow ["h1", "h2"] ["a", "b"]] := rfl
  rw [h2] at hcontra
  exact List.cons_ne_nil _ _ hcontra

/-! ### Generic invariant preservation through `foldlM` over `Except` -/

theorem foldlM_except_inv {α β : Type} (P : α → Prop)
    (step : α → β → Except String α)
    (hstep : ∀ a b a', P a → step a b = Except.ok a' → P a') :
    ∀ (l : List β) (a a' : α), P a → l.foldlM step a = Except.ok a' → P a' := by
  intro l
  induction l with
  | nil =>
    intro a a' h heq
    cases heq
    exact h
  | cons b rest ih =>
    intro a a' h heq
    rw [List.foldlM_cons] at heq
    cases hs : step a b with
    | error e => rw [hs] at heq; cases heq
    | ok a1 =>
      rw [hs] at heq
      exact ih a1 a' (hstep a b a1 h hs) heq

/-! ### Partition writer invariants: naming (C3) -/

theorem finalizeCurrent_current_none (st : WriterState) :
    (finalizeCurrent st).current = none ∨ finalizeCurrent st = st := by
  unfold finalizeCurrent
  split
  · next heq => right; rfl
  · split
    · left; rfl
    · left; rfl

theorem finalize_namesInv (s : Nat) (st : WriterState)
    (h : WriterNamesInv s st) : WriterNamesInv s (finalizeCurrent st) ∧
      (finalizeCurrent st).current = none := by
  obtain ⟨h1, h2, h3⟩ := h
  unfold finalizeCurrent
  split
  · next heq => exact ⟨⟨h1, h2, h3⟩, heq⟩
  · next p heq =>
    obtain ⟨hpi, hrows, hname⟩ := h2 p heq
    have hne : ¬ p.rows = 0 := by omega
    rw [if_neg hne]
    refine ⟨⟨?_, ?_, ?_⟩, rfl⟩
    · simp only [List.map_append, List.length_append, List.map_cons,
        List.map_nil, List.length_cons, List.length_nil]
      rw [h1, hname]
      show _ = (List.range' s (st.created.length + (0 + 1))).map partitionNameOf
      rw [(by omega : st.created.length + (0 + 1) = st.created.length + 1),
        List.range'_concat]
      simp
    · intro q hq
      cases hq
    · intro _
      simp only [List.length_append, List.length_cons, List.length_nil]
      omega

theorem writeRow_namesInv (s : Nat) (st st' : WriterState) (mn : String)
    (hd rv : List String) (hinv : WriterNamesInv s st)
    (hok : writeRow st mn hd rv = Except.ok st') : WriterNamesInv s st' := by
  rw [writeRow] at hok
  by_cases hc : (st.current.isNone ||
      (st.directorySize != 0 &&
        decide ((st.current.map WPartition.rows).getD 0 ≥ st.directorySize))) = true
  · rw [if_pos hc] at hok
    obtain ⟨hf, hfnone⟩ := finalize_namesInv s st hinv
    obtain ⟨hf1, hf2, hf3⟩ := hf
    have hpi := hf3 hfnone
    set stF := finalizeCurrent st with hstF
    split at hok
    · next heq =>
      rw [startPartition] at heq
      simp at heq
    · next part heq =>
      by_cases hhd : hd = []
      · rw [if_pos hhd] at hok
        cases hok
      · rw [if_neg hhd] at hok
        rw [startPartition] at heq
        simp only [Option.some.injEq] at heq
        cases heq
        cases hok
        refine ⟨hf1, ?_, ?_⟩
        · intro q hq
          simp only [Option.some.injEq] at hq
          cases hq
          refine ⟨?_, ?_, ?_⟩
          · show stF.partitionIndex + 1 = s + stF.created.length + 1
            omega
          · show 1 ≤ 0 + 1
            omega
          · show partitionNameOf stF.partitionIndex = _
            rw [hpi]
            rfl
        · intro hq
          cases hq
  · rw [if_neg hc] at hok
    obtain ⟨h1, h2, h3⟩ := hinv
    simp only [Bool.or_eq_true, not_or, Bool.and_eq_true, not_and_or] at hc
    obtain ⟨hcur1, _⟩ := hc
    split at hok
    · next heq =>
      rw [heq] at hcur1
      simp at hcur1
    · next p heq =>
      obtain ⟨hpi, hrows, hname⟩ := h2 p heq
      by_cases hhd : hd = []
      · rw [if_pos hhd] at hok
        cases hok
      · rw [if_neg hhd] at hok
        cases hok
        refine ⟨h1, ?_, ?_⟩
        · intro q hq
          simp only [Option.some.injEq] at hq
          cases hq
          refine ⟨hpi, ?_, ?_⟩
          · show 1 ≤ p.rows + 1
            omega
          · show p.name = _
            exact hname
        · intro hq
          cases hq

theorem setContext_namesInv (s : Nat) (st : WriterState) (p : Option String)
    (h : WriterNamesInv s st) : WriterNamesInv s (setContext st p) := h

theorem rowsFold_namesInv (s : Nat) (mn : String) (headers : List String)
    (rows : List (List String))
    (a a' : WriterState × List (String × List String))
    (hinv : WriterNamesInv s a.1)
    (hok : rows.foldlM
      (fun (ws : WriterState × List (String × List String)) row => do
        let w' ← writeRow ws.1 mn headers row
        pure (w', seenAdd ws.2 mn (rowDigestStr row))) a = Except.ok a') :
    WriterNamesInv s a'.1 := by
  refine foldlM_except_inv (fun acc => WriterNamesInv s acc.1) _ ?_ rows a a' hinv hok
  intro b row b' hb hstep
  cases hw : writeRow b.1 mn headers row with
  | error e => rw [hw] at hstep; cases hstep
  | ok w' =>
    rw [hw] at hstep
    cases hstep
    exact writeRow_namesInv s b.1 w' mn headers row hb hw

theorem carryModelsFold_namesInv (s : Nat)
    (carryModels : List (String × CarryModel))
    (a a' : WriterState × List (String × List String) ×
      List (String × List String))
    (hinv : WriterNamesInv s a.1)
    (hok : carryModels.foldlM
      (fun acc2 mcm => do
        if mcm.2.rows = [] then pure acc2
        else
          let fh := assocSet acc2.2.1 mcm.1 mcm.2.headers
          let ws ← mcm.2.rows.foldlM
            (fun (ws : WriterState × List (String × List String)) row => do
              let w' ← writeRow ws.1 mcm.1 mcm.2.headers row
              pure (w', seenAdd ws.2 mcm.1 (rowDigestStr row)))
            (acc2.1, acc2.2.2)
          pure (ws.1, fh, ws.2)) a = Except.ok a') :
    WriterNamesInv s a'.1 := by
  refine foldlM_except_inv (fun acc => WriterNamesInv s acc.1) _ ?_
    carryModels a a' hinv hok
  intro b mcm b' hb hstep
  split at hstep
  · cases hstep; exact hb
  · cases hF : mcm.2.rows.foldlM
        (fun (ws : WriterState × List (String × List String)) row => do
          let w' ← writeRow ws.1 mcm.1 mcm.2.headers row
          pure (w', seenAdd ws.2 mcm.1 (rowDigestStr row)))
        (b.1, b.2.2) with
    | error e => rw [hF] at hstep; cases hstep
    | ok ws =>
      rw [hF] at hstep
      cases hstep
      exact rowsFold_namesInv s mcm.1 mcm.2.headers mcm.2.rows _ _ hb hF

theorem carryPass_namesInv (s : Nat)
    (byPart : List (String × List (String × CarryModel)))
    (impacted : List PartitionEntry)
    (a a' : WriterState × List (String × List String) ×
      List (String × List String))
    (hinv : WriterNamesInv s a.1)
    (hok : carryoverWritePass byPart impacted a = Except.ok a') :
    WriterNamesInv s a'.1 := by
  rw [carryoverWritePass] at hok
  refine foldlM_except_inv (fun acc => WriterNamesInv s acc.1) _ ?_
    impacted a a' hinv hok
  intro b entry b' hb hstep
  split at hstep
  · cases hstep; exact hb
  · dsimp only at hstep
    split at hstep
    · cases hstep; exact hb
    · cases hF : ((byPart.lookup entry.name).getD []).foldlM
          (fun acc2 mcm => do
            if mcm.2.rows = [] then pure acc2
            else
              let fh := assocSet acc2.2.1 mcm.1 mcm.2.headers
              let ws ← mcm.2.rows.foldlM
                (fun (ws : WriterState × List (String × List String)) row => do
                  let w' ← writeRow ws.1 mcm.1 mcm.2.headers row
                  pure (w', seenAdd ws.2 mcm.1 (rowDigestStr row)))
                (acc2.1, acc2.2.2)
              pure (ws.1, fh, ws.2))
          (setContext b.1 (some entry.name), b.2.1, b.2.2) with
      | error e => rw [hF] at hstep; cases hstep
      | ok inner =>
        rw [hF] at hstep
        cases hstep
        exact carryModelsFold_namesInv s ((byPart.lookup entry.name).getD [])
          (setContext b.1 (some entry.name), b.2.1, b.2.2) inner
          (setContext_namesInv s b.1 (some entry.name) hb) hF


theorem ingestStep_namesInv (s : Nat) (mn : String)
    (b b' : WriterState × List (String × List String) ×
      List (String × List String))
    (headers values : List String) (fh : List (String × List String))
    (digest : String) (hb : WriterNamesInv s b.1)
    (hstep : (if digest ∈ seenGet b.2.2 mn then pure b
      else do
        let w' ← writeRow b.1 mn headers values
        pure (w', fh, seenAdd b.2.2 mn digest)) = Except.ok b') :
    WriterNamesInv s b'.1 := by
  split at hstep
  · cases hstep; exact hb
  · cases hw : writeRow b.1 mn headers values with
    | error e => rw [hw] at hstep; cases hstep
    | ok w' =>
      rw [hw] at hstep
      cases hstep
      exact writeRow_namesInv s b.1 w' mn headers values hb hw

theorem ingestRowsFold_namesInv (s : Nat) (mn : String)
    (cfg : PrepModelConfig) (rers : List (List (String × Option String)))
    (a a' : WriterState × List (String × List String) ×
      List (String × List String))
    (hinv : WriterNamesInv s a.1)
    (hok : rers.foldlM
      (fun acc2 rawRow => do
        match sanitize_row rawRow cfg with
        | none => pure acc2
        | some sanitized =>
          let headers0 := ((acc2.2.1).lookup mn).getD []
          let headers :=
            if headers0 = [] then sanitized.map (·.1) else headers0
          let fh :=
            if headers0 = [] then assocSet acc2.2.1 mn headers
            else acc2.2.1
          let rowValues := rowValuesFor sanitized headers
          let digest := rowDigestStr rowValues
          if digest ∈ seenGet acc2.2.2 mn then pure acc2
          else do
            let w' ← writeRow acc2.1 mn headers rowValues
            pure (w', fh, seenAdd acc2.2.2 mn digest)) a = Except.ok a') :
    WriterNamesInv s a'.1 := by
  refine foldlM_except_inv (fun acc => WriterNamesInv s acc.1) _ ?_
    rers a a' hinv hok
  intro b rawRow b' hb hstep
  split at hstep
  · cases hstep; exact hb
  · next sanitized heq =>
    dsimp only at hstep
    exact ingestStep_namesInv s mn b b' _ _ _ _ hb hstep

theorem ingestPass_namesInv (s : Nat)
    (configs : List (String × PrepModelConfig))
    (iterRows : String → List (List (String × Option String)))
    (modelNames : List String)
    (a a' : WriterState × List (String × List String) ×
      List (String × List String))
    (hinv : WriterNamesInv s a.1)
    (hok : ingestPass configs iterRows modelNames a = Except.ok a') :
    WriterNamesInv s a'.1 := by
  rw [ingestPass] at hok
  refine foldlM_except_inv (fun acc => WriterNamesInv s acc.1) _ ?_
    modelNames a a' hinv hok
  intro b mn b' hb hstep
  split at hstep
  · cases hstep; exact hb
  · next cfg heq =>
    split at hstep
    · cases hstep; exact hb
    · exact ingestRowsFold_namesInv s mn cfg (iterRows mn) b b' hb hstep

/-! ### Schema change without a configured source aborts the run (C5) -/

/-- **C5.** A record type the run considers whose current signature differs
from the manifest's stored signature, but which has no configured source CSV
path, makes `write_partitions` return before constructing the partition
writer: no partition record is created, no partition directory is made, and
the manifest is not saved. -/
theorem schema_change_without_source_aborts (fs : FileSys)
    (manifest : Manifest) (configs : List (String × PrepModelConfig))
    (directorySize : Nat) (sigOf : String → String)
    (iterRows : String → List (List (String × Option String)))
    (runId outputRoot : String) (m : String)
    (hm : m ∈ modelsToConsider manifest configs) (prev : SchemaEntry)
    (hprev : manifest.modelSchemas.lookup m = some prev)
    (hdiff : sigOf m ≠ prev.signature)
    (hnosrc : ∀ cfg, configs.lookup m = some cfg → cfg.path = none) :
    write_partitions fs manifest configs directorySize sigOf iterRows runId
      outputRoot =
      Except.ok { savedManifest := none, created := [], dirsCreated := [] } := by
  have hflag : (schemaStep (manifest.modelSchemas.lookup m) (sigOf m)).2 = true := by
    rw [hprev, schemaStep]
    rw [if_pos (fun hs => hdiff hs.symm)]
  have hmod : m ∈ modifiedModelsOf manifest configs sigOf := by
    rw [modifiedModelsOf]
    exact List.mem_map.mpr
      ⟨(m, schemaStep (manifest.modelSchemas.lookup m) (sigOf m)),
        List.mem_filter.mpr
          ⟨List.mem_map.mpr ⟨m, hm, rfl⟩, hflag⟩, rfl⟩
  have hmiss : m ∈ missingModifiedSources manifest configs sigOf := by
    rw [missingModifiedSources]
    apply List.mem_filter.mpr
    refine ⟨?_, ?_⟩
    · rw [sortStrings]
      exact (List.mem_insertionSort _).mpr hmod
    · show (match configs.lookup m with
        | none => true
        | some cfg => cfg.path.isNone) = true
      cases hcfg : configs.lookup m with
      | none => rfl
      | some cfg =>
        show cfg.path.isNone = true
        rw [hnosrc cfg hcfg]
        rfl
  have hne : missingModifiedSources manifest configs sigOf ≠ [] :=
    List.ne_nil_of_mem hmiss
  rw [write_partitions]
  rw [if_pos hne]

/-- **C5 (witness).** -/
theorem schema_change_without_source_aborts_witness :
    write_partitions [] (Manifest.mk [] [("Table", ⟨"old", 1⟩)] [])
      [("Table", ⟨none, [], []⟩)] 2 (fun _ => "new") (fun _ => []) "r1" "/o" =
      Except.ok { savedManifest := none, created := [], dirsCreated := [] } :=
  schema_change_without_source_aborts [] _ _ 2 _ _ "r1" "/o" "Table"
    (by decide) ⟨"old", 1⟩ rfl (by decide)
    (fun cfg h => by
      injection h with h2
      rw [← h2])

/-! ### Partition index assignment (C3) -/

theorem except_bind_ok {α β : Type} (x : Except String α)
    (f : α → Except String β) (b : β) :
    (x >>= f) = Except.ok b ↔ ∃ a, x = Except.ok a ∧ f a = Except.ok b := by
  cases x with
  | error e =>
    constructor
    · intro h; cases h
    · rintro ⟨a, ha, _⟩; cases ha
  | ok a =>
    constructor
    · intro h; exact ⟨a, rfl, h⟩
    · rintro ⟨a', ha, hf⟩
      cases ha
      exact hf

theorem runPasses_namesInv (fs : FileSys) (manifest : Manifest)
    (configs : List (String × PrepModelConfig)) (directorySize : Nat)
    (sigOf : String → String)
    (iterRows : String → List (List (String × Option String)))
    (w : WriterState)
    (hok : runPasses fs manifest configs directorySize sigOf iterRows =
      Except.ok w) :
    WriterNamesInv manifest.partitions.length w := by
  rw [runPasses] at hok
  rw [except_bind_ok] at hok
  obtain ⟨s1, hs1, hok⟩ := hok
  rw [except_bind_ok] at hok
  obtain ⟨s2, hs2, hok⟩ := hok
  cases hok
  have h0 : WriterNamesInv manifest.partitions.length
      (initWriter directorySize manifest.partitions.length) := by
    refine ⟨rfl, ?_, ?_⟩
    · intro p hp; cases hp
    · intro _; rfl
  have h1 := carryPass_namesInv manifest.partitions.length _ _ _ s1 h0 hs1
  have h2 := ingestPass_namesInv manifest.partitions.length _ _ _ s1 s2 h1 hs2
  exact (finalize_namesInv _ _ h2).1

theorem write_partitions_new_indices (fs : FileSys) (manifest : Manifest)
    (configs : List (String × PrepModelConfig)) (directorySize : Nat)
    (sigOf : String → String)
    (iterRows : String → List (List (String × Option String)))
    (runId outputRoot : String) (out : RunOutcome)
    (hok : write_partitions fs manifest configs directorySize sigOf iterRows
      runId outputRoot = Except.ok out) :
    out.created.map CreatedPartition.name =
      (List.range' manifest.partitions.length out.created.length).map
        partitionNameOf ∧
    ∀ c ∈ out.created, ∃ j, manifest.partitions.length ≤ j ∧
      j < manifest.partitions.length + out.created.length ∧
      c.name = partitionNameOf j := by
  have hmain : out.created.map CreatedPartition.name =
      (List.range' manifest.partitions.length out.created.length).map
        partitionNameOf := by
    rw [write_partitions] at hok
    by_cases hmiss : missingModifiedSources manifest configs sigOf ≠ []
    · rw [if_pos hmiss] at hok
      cases hok
      rfl
    · rw [if_neg hmiss] at hok
      split at hok
      · cases hok
      · next w hw =>
        by_cases hcr : w.created = []
        · rw [if_pos hcr] at hok
          cases hok
          rfl
        · rw [if_neg hcr] at hok
          cases hok
          exact (runPasses_namesInv fs manifest configs directorySize sigOf
            iterRows w hw).1
  refine ⟨hmain, ?_⟩
  intro c hc
  have hname : c.name ∈ out.created.map CreatedPartition.name :=
    List.mem_map.mpr ⟨c, hc, rfl⟩
  rw [hmain] at hname
  obtain ⟨j, hj, hjeq⟩ := List.mem_map.mp hname
  have := List.mem_range'_1.mp hj
  exact ⟨j, this.1, this.2, hjeq.symm⟩

/-- **C3 (counterexample).** Over a manifest whose only partition has index
5, the next partition created is `partition_00001` (index = the count of
manifest entries, which is 1 — not 6, and not greater than 5); and a cold
run's first partition is `partition_00000`, not `partition_00001`. -/
theorem new_partition_index_is_count_not_max :
    (write_partitions [] gapManifest tableOnlyConfigs 2 (fun _ => "sig1")
      oneTableRow "r1" "/o").map (fun o => o.created.map CreatedPartition.name) =
      Except.ok ["partition_00001"] ∧
    gapManifest.partitions.map PartitionEntry.name = ["partition_00005"] ∧
    (write_partitions [] coldManifest tableOnlyConfigs 2 (fun _ => "sig1")
      oneTableRow "r1" "/o").map (fun o => o.created.map CreatedPartition.name) =
      Except.ok ["partition_00000"] ∧
    "partition_00000" ≠ "partition_00001" ∧ ¬ (1 : Nat) > 5 :=
  ⟨rfl, rfl, rfl, by decide, by decide⟩

/-- **C3 (witness).** -/
theorem write_partitions_new_indices_witness :
    write_partitions [] coldManifest tableOnlyConfigs 2 (fun _ => "sig1")
      oneTableRow "r1" "/o" = Except.ok coldRunOut ∧
    coldRunOut.created.map CreatedPartition.name =
      (List.range' coldManifest.partitions.length
        coldRunOut.created.length).map partitionNameOf :=
  ⟨rfl,
    (write_partitions_new_indices [] coldManifest tableOnlyConfigs 2
      (fun _ => "sig1") oneTableRow "r1" "/o" coldRunOut rfl).1⟩

theorem load_existing_hashes_reads_all_partitions_witness :
    digestOfCsvRow ["h1", "h2"] ["a", "b"] ∈
      seenGet (load_existing_hashes staleOnlyFs staleOnlyManifest) "Table" :=
  load_existing_hashes_reads_all_partitions.2 staleOnlyFs staleOnlyManifest
    { name := "partition_00000"
      models := [("Table", ⟨"p0/Table.csv", 1⟩)]
      rows := 1
      stale := true
      staleReason := some "schema-change"
      replaces := []
      replacedBy := [] }
    "Table" ⟨"p0/Table.csv", 1⟩ ["h1", "h2"] [["a", "b"]]
    (by decide) (by decide) rfl (by decide) ["a", "b"] (by decide)

theorem schema_version_propagation_witness :
    ("T", schemaStep
        ((Manifest.mk [] [("T", ⟨"s1", 3⟩)] []).modelSchemas.lookup "T")
        ((fun _ => "s2") "T")) ∈
      newSchemaEntries (Manifest.mk [] [("T", ⟨"s1", 3⟩)] [])
        [("T", ⟨none, [], []⟩)] (fun _ => "s2") ∧
    List.Chain' SchemaMono (schemaTrace ["a", "a", "b"]) :=
  ⟨schema_version_propagation.2.2.1 _ _ _ "T" (by decide),
    (schema_version_propagation.2.2.2 ["a", "a", "b"]).2.1⟩

/-! ### Partition writer row cap (C2) -/

theorem countAdd_le (counts : List (String × Nat)) (m : String) (r : Nat)
    (h : ∀ mc ∈ counts, mc.2 ≤ r) :
    ∀ mc ∈ countAdd counts m, mc.2 ≤ r + 1 := by
  induction counts with
  | nil =>
    intro mc hmc
    rw [countAdd] at hmc
    rcases List.mem_singleton.mp hmc with rfl
    omega
  | cons kv rest ih =>
    obtain ⟨k, c⟩ := kv
    intro mc hmc
    rw [countAdd] at hmc
    by_cases hk : k = m
    · rw [if_pos hk] at hmc
      rcases List.mem_cons.mp hmc with rfl | hmc2
      · have := h (k, c) (List.mem_cons_self _ _)
        omega
      · have := h mc (List.mem_cons_of_mem _ hmc2)
        omega
    · rw [if_neg hk] at hmc
      rcases List.mem_cons.mp hmc with rfl | hmc2
      · have := h (k, c) (List.mem_cons_self _ _)
        omega
      · exact ih (fun mc2 hmc3 => h mc2 (List.mem_cons_of_mem _ hmc3)) mc hmc2

theorem finalizeCurrent_dirSize (st : WriterState) :
    (finalizeCurrent st).directorySize = st.directorySize := by
  unfold finalizeCurrent
  split
  · rfl
  · split <;> rfl

theorem finalize_capInv (d : Nat) (st : WriterState) (h : WriterCapInv d st) :
    WriterCapInv d (finalizeCurrent st) := by
  obtain ⟨hdir, hcreated, hcur⟩ := h
  unfold finalizeCurrent
  split
  · exact ⟨hdir, hcreated, hcur⟩
  · next p heq =>
    obtain ⟨hrows, hcounts⟩ := hcur p heq
    split
    · exact ⟨hdir, hcreated, fun q hq => by cases hq⟩
    · next hne =>
      refine ⟨hdir, ?_, fun q hq => by cases hq⟩
      intro c hc
      rcases List.mem_append.mp hc with hc1 | hc2
      · exact hcreated c hc1
      · rcases List.mem_singleton.mp hc2 with rfl
        refine ⟨?_, ?_, ?_⟩
        · show 1 ≤ p.rows
          omega
        · show p.rows ≤ d
          exact hrows
        · show ∀ mc ∈ p.modelCounts, mc.2 ≤ p.rows
          exact hcounts

theorem writeRow_capInv (d : Nat) (st st' : WriterState) (mn : String)
    (hd rv : List String) (hdpos : 0 < d) (hinv : WriterCapInv d st)
    (hok : writeRow st mn hd rv = Except.ok st') : WriterCapInv d st' := by
  rw [writeRow] at hok
  by_cases hc : (st.current.isNone ||
      (st.directorySize != 0 &&
        decide ((st.current.map WPartition.rows).getD 0 ≥ st.directorySize))) = true
  · rw [if_pos hc] at hok
    have hf := finalize_capInv d st hinv
    obtain ⟨hfdir, hfcreated, hfcur⟩ := hf
    split at hok
    · next heq =>
      rw [startPartition] at heq
      simp at heq
    · next part heq =>
      by_cases hhd : hd = []
      · rw [if_pos hhd] at hok
        cases hok
      · rw [if_neg hhd] at hok
        rw [startPartition] at heq
        simp only [Option.some.injEq] at heq
        cases heq
        cases hok
        refine ⟨hfdir, hfcreated, ?_⟩
        intro q hq
        simp only [Option.some.injEq] at hq
        cases hq
        refine ⟨?_, ?_⟩
        · show 0 + 1 ≤ d
          omega
        · intro mc hmc
          show mc.2 ≤ 0 + 1
          exact countAdd_le [] mn 0 (by intro mc2 hmc2; cases hmc2) mc hmc
  · rw [if_neg hc] at hok
    obtain ⟨hdir, hcreated, hcur⟩ := hinv
    simp only [Bool.or_eq_true, not_or, Bool.and_eq_true, not_and_or] at hc
    obtain ⟨hcur1, hc2⟩ := hc
    split at hok
    · next heq =>
      rw [heq] at hcur1
      simp at hcur1
    · next p heq =>
      obtain ⟨hrows, hcounts⟩ := hcur p heq
      have hlt : p.rows < d := by
        rcases hc2 with hc2a | hc2b
        · exfalso
          apply hc2a
          simp only [bne_iff_ne, ne_eq, hdir]
          omega
        · rw [decide_eq_true_eq] at hc2b
          rw [heq] at hc2b
          have h9 : (Option.map WPartition.rows (some p)).getD 0 = p.rows := rfl
          rw [h9] at hc2b
          omega
      by_cases hhd : hd = []
      · rw [if_pos hhd] at hok
        cases hok
      · rw [if_neg hhd] at hok
        cases hok
        refine ⟨hdir, hcreated, ?_⟩
        intro q hq
        simp only [Option.some.injEq] at hq
        cases hq
        refine ⟨?_, ?_⟩
        · show p.rows + 1 ≤ d
          omega
        · intro mc hmc
          show mc.2 ≤ p.rows + 1
          exact countAdd_le p.modelCounts mn p.rows hcounts mc hmc

theorem runWrites_capInv (d : Nat)
    (ws : List (String × List String × List String)) (st' : WriterState)
    (hdpos : 0 < d) (hok : runWrites d ws = Except.ok st') :
    WriterCapInv d st' := by
  rw [runWrites] at hok
  refine foldlM_except_inv (WriterCapInv d) _ ?_ ws (initWriter d 0) st' ?_ hok
  · intro a b a' ha hstep
    exact writeRow_capInv d a a' b.1 b.2.1 b.2.2 hdpos ha hstep
  · refine ⟨rfl, ?_, ?_⟩
    · intro c hc
      cases hc
    · intro p hp
      cases hp

theorem finalizeCurrent_partitionIndex (st : WriterState) :
    (finalizeCurrent st).partitionIndex = st.partitionIndex := by
  unfold finalizeCurrent
  split
  · rfl
  · split <;> rfl

theorem writeRow_opens_iff (st : WriterState) (mn : String)
    (hd rv : List String) (st' : WriterState)
    (hok : writeRow st mn hd rv = Except.ok st') :
    st'.partitionIndex = st.partitionIndex + 1 ↔
      st.current = none ∨ ∃ p, st.current = some p ∧
        st.directorySize ≠ 0 ∧ st.directorySize ≤ p.rows := by
  rw [writeRow] at hok
  by_cases hc : (st.current.isNone ||
      (st.directorySize != 0 &&
        decide ((st.current.map WPartition.rows).getD 0 ≥ st.directorySize))) = true
  · rw [if_pos hc] at hok
    split at hok
    · next heq =>
      rw [startPartition] at heq
      simp at heq
    · next part heq =>
      by_cases hhd : hd = []
      · rw [if_pos hhd] at hok
        cases hok
      · rw [if_neg hhd] at hok
        cases hok
        have hidx : (startPartition (finalizeCurrent st)).partitionIndex =
            st.partitionIndex + 1 := by
          show (finalizeCurrent st).partitionIndex + 1 = st.partitionIndex + 1
          rw [finalizeCurrent_partitionIndex]
        constructor
        · intro _
          simp only [Bool.or_eq_true, Bool.and_eq_true, decide_eq_true_eq] at hc
          rcases hc with hc1 | ⟨hc2, hc3⟩
          · left
            exact Option.isNone_iff_eq_none.mp hc1
          · cases hcur : st.current with
            | none => exact Or.inl rfl
            | some p =>
              right
              refine ⟨p, rfl, by simpa using hc2, ?_⟩
              rw [hcur] at hc3
              simpa using hc3
        · intro _
          exact hidx
  · rw [if_neg hc] at hok
    simp only [Bool.or_eq_true, not_or, Bool.and_eq_true, not_and_or] at hc
    obtain ⟨hcur1, hc2⟩ := hc
    split at hok
    · next heq =>
      rw [heq] at hcur1
      simp at hcur1
    · next p heq =>
      by_cases hhd : hd = []
      · rw [if_pos hhd] at hok
        cases hok
      · rw [if_neg hhd] at hok
        cases hok
        constructor
        · intro habs
          exfalso
          have : st.partitionIndex = st.partitionIndex + 1 := habs
          omega
        · rintro (hnone | ⟨q, hq, hd0, hge⟩)
          · rw [heq] at hnone
            cases hnone
          · rw [heq] at hq
            injection hq with hq
            subst hq
            exfalso
            rcases hc2 with hc2a | hc2b
            · apply hc2a
              simp only [bne_iff_ne, ne_eq]
              exact hd0
            · rw [decide_eq_true_eq] at hc2b
              rw [heq] at hc2b
              have h9 : (Option.map WPartition.rows (some p)).getD 0 = p.rows := rfl
              rw [h9] at hc2b
              omega

/-- **C2 (counterexample).** With `directory_size = 2`, after writing one
`Table` row and one `Field` row a partition is open whose `Table` count is
1 (< 2); writing a third row (another `Table`) nevertheless opens a new
partition, because the rollover condition reads the partition's TOTAL row
count, not the per-record-type count. -/
theorem new_partition_despite_type_below_cap :
    (runWrites 2 twoTypeWrites2).map
      (fun st => (st.partitionIndex,
        st.current.map fun p => p.modelCounts.lookup "Table")) =
      Except.ok (1, some (some 1)) ∧
    (runWrites 2 twoTypeWrites3).map
      (fun st => (st.partitionIndex, st.created.length)) = Except.ok (2, 1) ∧
    (1 : Nat) < 2 :=
  ⟨rfl, rfl, by decide⟩

/-- **C2 (amended).** With `directory_size = d > 0`, every partition the
writer finalises has between 1 and `d` TOTAL rows, so in particular each
record type has at most `d` rows in it (the same bounds hold for the open
partition); and a write opens a new partition exactly when none is open or
the open partition's total row count has reached `d` (`directory_size = 0`
disables the cap). -/
theorem partition_cap_is_total_rows (d : Nat)
    (ws : List (String × List String × List String)) (st' : WriterState)
    (hdpos : 0 < d) (hok : runWrites d ws = Except.ok st') :
    (∀ c ∈ st'.created,
      1 ≤ c.rows ∧ c.rows ≤ d ∧ ∀ mc ∈ c.models, mc.2 ≤ c.rows) ∧
    (∀ p, st'.current = some p →
      p.rows ≤ d ∧ ∀ mc ∈ p.modelCounts, mc.2 ≤ p.rows) ∧
    (∀ (st st2 : WriterState) (mn : String) (hd2 rv : List String),
      writeRow st mn hd2 rv = Except.ok st2 →
      (st2.partitionIndex = st.partitionIndex + 1 ↔
        st.current = none ∨ ∃ p, st.current = some p ∧
          st.directorySize ≠ 0 ∧ st.directorySize ≤ p.rows)) := by
  have h := runWrites_capInv d ws st' hdpos hok
  exact ⟨h.2.1, h.2.2,
    fun st st2 mn hd2 rv hok2 => writeRow_opens_iff st mn hd2 rv st2 hok2⟩

/-- **C2 (witness).** -/
theorem partition_cap_is_total_rows_witness :
    runWrites 2 twoTypeWrites3 = Except.ok twoTypeRunOut ∧
    (∀ c ∈ twoTypeRunOut.created,
      1 ≤ c.rows ∧ c.rows ≤ 2 ∧ ∀ mc ∈ c.models, mc.2 ≤ c.rows) :=
  ⟨rfl, (partition_cap_is_total_rows 2 twoTypeWrites3 twoTypeRunOut
    (by decide) rfl).1⟩

/-! ### Row digest determinism under column permutation (C8) -/

theorem pyDictGet_perm {l1 l2 : List (String × Option String)}
    (h : l1.Perm l2) :
    (l1.map Prod.fst).Nodup → ∀ k, pyDictGet l1 k = pyDictGet l2 k := by
  induction h with
  | nil => intro _ k; rfl
  | cons x t ih =>
    intro hnodup k
    rw [pyDictGet, pyDictGet]
    rw [ih (by simpa using (List.nodup_cons.mp (by simpa using hnodup)).2) k]
  | swap x y l =>
    intro hnodup k
    have hxy : y.1 ≠ x.1 := by
      simp only [List.map_cons, List.nodup_cons, List.mem_cons] at hnodup
      exact fun hcontra => hnodup.1 (Or.inl hcontra)
    rw [pyDictGet, pyDictGet, pyDictGet, pyDictGet]
    cases hg : pyDictGet l k with
    | some r => rfl
    | none =>
      by_cases hx : x.1 = k <;> by_cases hy : y.1 = k <;>
        simp [hx, hy]
      exact absurd (hy.trans hx.symm) hxy
  | trans h1 h2 ih1 ih2 =>
    intro hnodup k
    rw [ih1 hnodup k]
    refine ih2 ?_ k
    have := (h1.map Prod.fst).nodup_iff
    exact this.mp hnodup

/-- **C8.** The row digest the partitioning engine computes is invariant
under permuting a row's cells together with its header: the ingest pass
projects the header-keyed row dictionary onto the (fixed) final header
order before hashing, so two rows carrying the same header-to-cell
associations in different column orders hash identically. -/
theorem row_digest_column_permutation_invariant
    (pairs1 pairs2 : List (String × Option String))
    (targetHeaders : List String)
    (hnodup : (pairs1.map Prod.fst).Nodup) (hperm : pairs1.Perm pairs2) :
    rowDigestStr (rowValuesFor pairs2 targetHeaders) =
      rowDigestStr (rowValuesFor pairs1 targetHeaders) := by
  have hvals : rowValuesFor pairs2 targetHeaders =
      rowValuesFor pairs1 targetHeaders := by
    rw [rowValuesFor, rowValuesFor]
    apply List.map_congr_left
    intro c _
    rw [pyDictGet_perm hperm hnodup c]
  rw [hvals]

/-- **C8 (witness).** -/
theorem row_digest_column_permutation_invariant_witness :
    ([(("a" : String), some ("1" : String)), ("b", some "2")].map
      Prod.fst).Nodup ∧
    rowDigestStr (rowValuesFor [("b", some "2"), ("a", some "1")]
      ["a", "b"]) =
      rowDigestStr (rowValuesFor [("a", some "1"), ("b", some "2")]
        ["a", "b"]) :=
  ⟨by decide,
    row_digest_column_permutation_invariant
      [("a", some "1"), ("b", some "2")] [("b", some "2"), ("a", some "1")]
      ["a", "b"] (by decide) (by decide)⟩

/-! ### Original-token metadata on truncation (C1) -/

set_option maxRecDepth 4000 in
/-- **C1 (code bug).** For a document over the embedding token limit,
`process_document` overwrites `token_count` with the POST-truncation count
(indexing.py:890) before assigning
`metadata["original_tokens"] = int(token_count)` (indexing.py:894): at
embedding limit 20 with a one-token-per-character encoder and a 40-token
document, the stored `original_tokens` is the truncated count 19, not the
pre-truncation count 40 that the key name, the spec and the adjacent
truncation log (which passes the pre-truncation count as its
`original_tokens` argument, indexing.py:880-886) all call for. -/
theorem original_tokens_records_final_count :
    count_tokens charEnc fortyAs = 40 ∧
    process_document_token_stage charEnc 20 "auto" (some "end") [] "Field"
      fortyAs [] =
      some (String.mk (List.replicate 19 'a'), 19,
        [("truncated", MValue.b true), ("original_tokens", MValue.n 19)]) ∧
    (19 : Nat) ≠ 40 :=
  ⟨by decide, by decide, by decide⟩

/-! ### Fan-out query merge (C7) -/

theorem filter_orderedInsert_eq (x : MergeTuple) (l : List MergeTuple)
    (d : Dist) (hx : x.dist = d) :
    (l.orderedInsert tupleLE x).filter (fun t => decide (t.dist = d)) =
      x :: l.filter (fun t => decide (t.dist = d)) := by
  induction l with
  | nil => simp [List.orderedInsert, hx]
  | cons y ys ih =>
    rw [List.orderedInsert]
    by_cases hle : tupleLE x y
    · rw [if_pos hle]
      simp [hx]
    · rw [if_neg hle]
      have hylt : y.dist < d := by
        rw [← hx]
        exact lt_of_not_le hle
      have hyne : ¬ (y.dist = d) := ne_of_lt hylt
      rw [List.filter_cons, List.filter_cons]
      simp only [hyne, decide_eq_true_eq, if_neg]
      rw [ih]
      simp [hyne]

theorem filter_orderedInsert_ne (x : MergeTuple) (l : List MergeTuple)
    (d : Dist) (hx : ¬ x.dist = d) :
    (l.orderedInsert tupleLE x).filter (fun t => decide (t.dist = d)) =
      l.filter (fun t => decide (t.dist = d)) := by
  induction l with
  | nil => simp [List.orderedInsert, hx]
  | cons y ys ih =>
    rw [List.orderedInsert]
    by_cases hle : tupleLE x y
    · rw [if_pos hle]
      rw [List.filter_cons]
      simp [hx]
    · rw [if_neg hle]
      rw [List.filter_cons, List.filter_cons]
      rw [ih]

theorem pySortByDistance_filter (l : List MergeTuple) (d : Dist) :
    (pySortByDistance l).filter (fun t => decide (t.dist = d)) =
      l.filter (fun t => decide (t.dist = d)) := by
  rw [pySortByDistance]
  induction l with
  | nil => rfl
  | cons x xs ih =>
    rw [List.insertionSort]
    by_cases hx : x.dist = d
    · rw [filter_orderedInsert_eq x _ d hx, ih, List.filter_cons]
      simp [hx]
    · rw [filter_orderedInsert_ne x _ d hx, ih, List.filter_cons]
      simp [hx]

theorem getD_map_range {α : Type} (f : Nat → α) (n q : Nat) (hq : q < n)
    (dflt : α) : ((List.range n).map f).getD q dflt = f q := by
  rw [List.getD_eq_getElem?_getD, List.getElem?_map, List.getElem?_range hq]
  rfl

/-- **C7.** Per query index, `_merge_query_results` returns exactly the
first `n_results` tuples of the stable ascending-by-distance sort of the
concatenation of all collections' tuples in scan order; the sort is a
permutation, it is sorted by distance, and it is stable (the subsequence of
tuples at any fixed distance is exactly their concatenation order, i.e.
collection scan order then in-collection order). -/
theorem merge_query_results_spec (results : List QueryResultModel)
    (nResults numQueries q : Nat) (hq : q < numQueries) :
    ((merge_query_results results nResults numQueries).distances.getD q [] =
      ((pySortByDistance (collectTuples results q)).take nResults).map
        MergeTuple.dist) ∧
    ((merge_query_results results nResults numQueries).ids.getD q [] =
      ((pySortByDistance (collectTuples results q)).take nResults).map
        MergeTuple.docId) ∧
    ((merge_query_results results nResults numQueries).documents.getD q [] =
      ((pySortByDistance (collectTuples results q)).take nResults).map
        MergeTuple.document) ∧
    ((merge_query_results results nResults numQueries).metadatas.getD q [] =
      ((pySortByDistance (collectTuples results q)).take nResults).map
        MergeTuple.metadata) ∧
    List.Sorted tupleLE (pySortByDistance (collectTuples results q)) ∧
    (pySortByDistance (collectTuples results q)).Perm
      (collectTuples results q) ∧
    ∀ d : Dist,
      (pySortByDistance (collectTuples results q)).filter
        (fun t => decide (t.dist = d)) =
      (collectTuples results q).filter (fun t => decide (t.dist = d)) := by
  refine ⟨?_, ?_, ?_, ?_, ?_, ?_, ?_⟩
  · simp only [merge_query_results, List.map_map]
    exact getD_map_range _ numQueries q hq []
  · simp only [merge_query_results, List.map_map]
    exact getD_map_range _ numQueries q hq []
  · simp only [merge_query_results, List.map_map]
    exact getD_map_range _ numQueries q hq []
  · simp only [merge_query_results, List.map_map]
    exact getD_map_range _ numQueries q hq []
  · exact List.sorted_insertionSort tupleLE _
  · exact List.perm_insertionSort tupleLE _
  · intro d
    exact pySortByDistance_filter _ d

theorem merge_query_results_spec_witness :
    0 < 1 ∧
    (merge_query_results [wr1, wr2] 3 1).ids.getD 0 [] = ["b", "a", "c"] ∧
    (merge_query_results [wr1, wr2] 3 1).distances.getD 0 [] =
      [((1 : ℚ) : Dist), ((2 : ℚ) : Dist), ((2 : ℚ) : Dist)] := by
  refine ⟨by decide, ?_, ?_⟩
  · have h := (merge_query_results_spec [wr1, wr2] 3 1 0 (by decide)).2.1
    rw [h]; decide
  · have h := (merge_query_results_spec [wr1, wr2] 3 1 0 (by decide)).1
    rw [h]; decide

/-! ### Flush-loop lemmas (C9) -/

theorem sumTokens_append (a b : List (String × Nat)) :
    sumTokens (a ++ b) = sumTokens a + sumTokens b := by
  simp [sumTokens]

theorem shrinkN_le (p : List (String × Nat)) (L : Nat) :
    ∀ n, shrinkN p L n ≤ n := by
  intro n
  induction n using Nat.strong_induction_on with
  | _ n ih =>
    match n with
    | 0 => rw [shrinkN]
    | 1 => rw [shrinkN]
    | m + 2 =>
      rw [shrinkN]
      split
      · exact le_trans (ih (m + 1) (by omega)) (by omega)
      · exact le_refl _

theorem shrinkN_pos (p : List (String × Nat)) (L : Nat) :
    ∀ n, 1 ≤ n → 1 ≤ shrinkN p L n := by
  intro n
  induction n using Nat.strong_induction_on with
  | _ n ih =>
    match n with
    | 0 => intro h; omega
    | 1 => intro _; rw [shrinkN]
    | m + 2 =>
      intro _
      rw [shrinkN]
      split
      · exact ih (m + 1) (by omega) (by omega)
      · omega

theorem shrinkN_sum (p : List (String × Nat)) (L : Nat) :
    ∀ n, sumTokens (p.take (shrinkN p L n)) ≤ L ∨ shrinkN p L n = 1 := by
  intro n
  induction n using Nat.strong_induction_on with
  | _ n ih =>
    match n with
    | 0 => left; rw [shrinkN]; simp [sumTokens]
    | 1 => right; rw [shrinkN]
    | m + 2 =>
      rw [shrinkN]
      split
      · exact ih (m + 1) (by omega)
      · left; omega

theorem flushIter_benign (L lb : Nat) (st : BatchState)
    (hall : ∀ p ∈ st.pending.take 1, p.2 ≤ L)
    (hdisj : ∀ p ∈ st.pending, p.1 ∉ st.collectionIds)
    (hlb : 1 ≤ lb) (hne : st.pending ≠ []) :
    ∃ n1 b lb' st',
      flushIter L lb st = (b, lb', st') ∧
      1 ≤ n1 ∧ 1 ≤ lb' ∧
      st'.pending = st.pending.drop n1 ∧
      st'.committed = st.committed ++ [(st.pending.take n1).map Prod.fst] ∧
      st'.collectionIds = st.collectionIds ++ (st.pending.take n1).map Prod.fst ∧
      st'.droppedIds = st.droppedIds ∧
      n1 ≤ st.pending.length ∧
      (sumTokens st.pending ≤ L + sumTokens (st.pending.drop n1)) ∧
      (b = false → st'.pending ≠ []) ∧
      (sumTokens (st.pending.drop n1) > L → b = false) := by
  have hlen : 1 ≤ st.pending.length := List.length_pos.mpr hne
  have hminpos : 1 ≤ min st.pending.length lb := le_min hlen hlb
  have hn1pos : 1 ≤ shrinkN st.pending L (min st.pending.length lb) :=
    shrinkN_pos _ _ _ hminpos
  have hpre : (st.pending.take (min st.pending.length lb)).any
      (fun p => st.collectionIds.contains p.1) = false := by
    rw [List.any_eq_false]
    intro p hp
    have hm := hdisj p (List.mem_of_mem_take hp)
    simp [hm]
  have hsum : ¬ sumTokens
      (st.pending.take (shrinkN st.pending L (min st.pending.length lb))) > L := by
    rcases shrinkN_sum st.pending L (min st.pending.length lb) with h | h
    · omega
    · rw [h]
      obtain ⟨p0, rest0, hp0⟩ := List.exists_cons_of_ne_nil hne
      rw [hp0]
      have h0 : p0.2 ≤ L := hall p0 (by rw [hp0]; simp)
      simp [sumTokens]
      omega
  refine ⟨shrinkN st.pending L (min st.pending.length lb),
    ((st.pending.drop (shrinkN st.pending L (min st.pending.length lb))).isEmpty ||
      (decide ((st.pending.drop (shrinkN st.pending L (min st.pending.length lb))).length <
          (if shrinkN st.pending L (min st.pending.length lb) < lb then
            max 1 (shrinkN st.pending L (min st.pending.length lb)) else lb)) &&
        decide (sumTokens (st.pending.drop (shrinkN st.pending L (min st.pending.length lb))) ≤ L))),
    (if shrinkN st.pending L (min st.pending.length lb) < lb then
      max 1 (shrinkN st.pending L (min st.pending.length lb)) else lb),
    { st with
      effectiveBatchSize := if shrinkN st.pending L (min st.pending.length lb) < lb then
        max 1 (shrinkN st.pending L (min st.pending.length lb)) else st.effectiveBatchSize
      pending := st.pending.drop (shrinkN st.pending L (min st.pending.length lb))
      currentTokenTotal :=
        sumTokens (st.pending.drop (shrinkN st.pending L (min st.pending.length lb)))
      committed := st.committed ++
        [(st.pending.take (shrinkN st.pending L (min st.pending.length lb))).map Prod.fst]
      collectionIds := st.collectionIds ++
        (st.pending.take (shrinkN st.pending L (min st.pending.length lb))).map Prod.fst },
    ?_, hn1pos, ?_, rfl, rfl, rfl, rfl, ?_, ?_, ?_, ?_⟩
  · rw [flushIter]
    dsimp only
    rw [hpre]
    simp only [Bool.false_eq_true, if_false]
    rw [if_neg hsum]
    rw [flushCommit]
  · split <;> omega
  · exact le_trans (shrinkN_le _ _ _) (min_le_left _ _)
  · have hsp : st.pending = st.pending.take (shrinkN st.pending L (min st.pending.length lb)) ++
        st.pending.drop (shrinkN st.pending L (min st.pending.length lb)) :=
      (List.take_append_drop _ _).symm
    calc sumTokens st.pending
        = sumTokens (st.pending.take (shrinkN st.pending L (min st.pending.length lb))) +
          sumTokens (st.pending.drop (shrinkN st.pending L (min st.pending.length lb))) := by
          rw [← sumTokens_append, ← hsp]
      _ ≤ L + sumTokens (st.pending.drop (shrinkN st.pending L (min st.pending.length lb))) := by
          omega
  · intro hb hnil
    have hnil2 : st.pending.drop (shrinkN st.pending L (min st.pending.length lb)) = [] := hnil
    rw [hnil2] at hb
    simp at hb
  · intro hgt
    have h1 : (st.pending.drop (shrinkN st.pending L (min st.pending.length lb))).isEmpty = false := by
      rw [List.isEmpty_eq_false_iff_exists_mem]
      by_contra hcon
      push_neg at hcon
      have : st.pending.drop (shrinkN st.pending L (min st.pending.length lb)) = [] :=
        List.eq_nil_iff_forall_not_mem.mpr hcon
      rw [this] at hgt
      simp [sumTokens] at hgt
    have h2 : decide (sumTokens (st.pending.drop (shrinkN st.pending L (min st.pending.length lb))) ≤ L) = false := by
      simp
      omega
    rw [h1, h2]
    simp

theorem flushLoop_benign (L : Nat) :
    ∀ (fuel lb : Nat) (st : BatchState),
      (∀ p ∈ st.pending, p.2 ≤ L) →
      (st.pending.map Prod.fst).Nodup →
      (∀ p ∈ st.pending, p.1 ∉ st.collectionIds) →
      1 ≤ lb →
      st.pending.length + 1 ≤ fuel →
      ∃ k lb' st' B,
        flushLoop L fuel lb st = (lb', st') ∧
        1 ≤ lb' ∧
        st'.pending = st.pending.drop k ∧
        st'.committed = st.committed ++ B ∧
        B.flatten = (st.pending.take k).map Prod.fst ∧
        st'.collectionIds = st.collectionIds ++ (st.pending.take k).map Prod.fst ∧
        st'.droppedIds = st.droppedIds := by
  intro fuel
  induction fuel with
  | zero => intro lb st _ _ _ _ hf; omega
  | succ fuel ih =>
    intro lb st hall hnodup hdisj hlb hf
    rw [flushLoop]
    by_cases hemp : st.pending.isEmpty
    · rw [if_pos hemp]
      exact ⟨0, lb, st, [], rfl, hlb, by simp, by simp, by simp, by simp, rfl⟩
    · rw [if_neg hemp]
      have hne : st.pending ≠ [] := by simpa [List.isEmpty_iff] using hemp
      obtain ⟨n1, b, lb', st', hIter, hn1, hlb', hpend, hcomm, hcoll, hdrop, hn1len, hrem, hbne, hbgt⟩ :=
        flushIter_benign L lb st (fun p hp => hall p (List.mem_of_mem_take hp)) hdisj hlb hne
      rw [hIter]
      have hsplit : ((st.pending.take n1).map Prod.fst).Disjoint
          ((st.pending.drop n1).map Prod.fst) := by
        have h1 : st.pending.map Prod.fst =
            (st.pending.take n1).map Prod.fst ++ (st.pending.drop n1).map Prod.fst := by
          rw [← List.map_append, List.take_append_drop]
        rw [h1] at hnodup
        exact (List.nodup_append.mp hnodup).2.2
      cases b with
      | true =>
        refine ⟨n1, lb', st', [(st.pending.take n1).map Prod.fst], rfl, hlb',
          hpend, hcomm, by simp, hcoll, hdrop⟩
      | false =>
        have hall2 : ∀ p ∈ st'.pending, p.2 ≤ L := by
          rw [hpend]
          intro p hp
          exact hall p (List.mem_of_mem_drop hp)
        have hnodup2 : (st'.pending.map Prod.fst).Nodup := by
          rw [hpend]
          exact hnodup.sublist ((List.drop_sublist _ _).map _)
        have hdisj2 : ∀ p ∈ st'.pending, p.1 ∉ st'.collectionIds := by
          rw [hpend, hcoll]
          intro p hp
          rw [List.mem_append]
          push_neg
          refine ⟨hdisj p (List.mem_of_mem_drop hp), ?_⟩
          intro hmem
          exact hsplit hmem (List.mem_map_of_mem _ hp)
        have hf2 : st'.pending.length + 1 ≤ fuel := by
          rw [hpend]
          have hld : (st.pending.drop n1).length = st.pending.length - n1 :=
            List.length_drop _ _
          have hlen : 0 < st.pending.length := List.length_pos.mpr hne
          omega
        obtain ⟨k2, lb2, st2, B2, hLoop, hlb2, hpend2, hcomm2, hflat2, hcoll2, hdrop2⟩ :=
          ih lb' st' hall2 hnodup2 hdisj2 hlb' hf2
        have hta : (st.pending.take (n1 + k2)).map Prod.fst =
            (st.pending.take n1).map Prod.fst ++
              ((st.pending.drop n1).take k2).map Prod.fst := by
          rw [List.take_add, List.map_append]
        refine ⟨n1 + k2, lb2, st2, [(st.pending.take n1).map Prod.fst] ++ B2,
          hLoop, hlb2, ?_, ?_, ?_, ?_, ?_⟩
        · rw [hpend2, hpend, List.drop_drop, Nat.add_comm]
        · rw [hcomm2, hcomm, List.append_assoc]
        · rw [hta]
          simp only [List.flatten_append, List.flatten_cons, List.flatten_nil,
            List.append_nil]
          rw [hflat2, hpend]
        · rw [hcoll2, hcoll, hpend, hta, List.append_assoc]
        · rw [hdrop2, hdrop]

theorem flushIter_single (L lb : Nat) (st : BatchState) (d : String) (t : Nat)
    (hP1 : st.pending = [(d, t)]) (htL : L < t) (hdc : d ∉ st.collectionIds)
    (hlb : 1 ≤ lb) :
    flushIter L lb st =
      if MAX_TOKENS_PER_REQUEST < t then
        (true, lb,
          { st with
            pending := []
            currentTokenTotal := 0
            droppedIds := st.droppedIds ++ [d] })
      else
        (true, if 1 < lb then 1 else lb,
          { st with
            effectiveBatchSize := if 1 < lb then 1 else st.effectiveBatchSize
            pending := []
            currentTokenTotal := 0
            committed := st.committed ++ [[d]]
            collectionIds := st.collectionIds ++ [d] }) := by
  rw [flushIter]
  dsimp only
  rw [hP1]
  have hlen : (([(d, t)] : List (String × Nat)).length) = 1 := rfl
  rw [hlen]
  have hmin : min 1 lb = 1 := min_eq_left hlb
  rw [hmin]
  have htake : (([(d, t)] : List (String × Nat)).take 1) = [(d, t)] := rfl
  rw [htake]
  have hany : (([(d, t)] : List (String × Nat)).any
      (fun p => st.collectionIds.contains p.1)) = false := by
    simp [hdc]
  rw [hany]
  simp only [Bool.false_eq_true, if_false]
  have hshr : shrinkN [(d, t)] L 1 = 1 := by rw [shrinkN]
  rw [hshr, htake]
  have hsum : sumTokens [(d, t)] = t := by simp [sumTokens]
  rw [hsum]
  rw [if_pos htL]
  by_cases hM : MAX_TOKENS_PER_REQUEST < t
  · rw [if_pos hM, if_pos hM]
    rfl
  · rw [if_neg hM, if_neg hM]
    rw [flushCommit]
    rfl

theorem flushLoop_oversized (L : Nat) (d : String) (t : Nat) (htL : L < t) :
    ∀ (fuel lb : Nat) (st : BatchState) (P : List (String × Nat)),
      st.pending = P ++ [(d, t)] →
      (∀ p ∈ P, p.2 ≤ L) →
      (st.pending.map Prod.fst).Nodup →
      (∀ p ∈ st.pending, p.1 ∉ st.collectionIds) →
      1 ≤ lb →
      st.pending.length + 1 ≤ fuel →
      ∃ lb' st' B,
        flushLoop L fuel lb st = (lb', st') ∧
        st'.pending = [] ∧
        B.flatten = P.map Prod.fst ∧
        (t ≤ MAX_TOKENS_PER_REQUEST →
          st'.committed = st.committed ++ B ++ [[d]] ∧
          st'.collectionIds = st.collectionIds ++ P.map Prod.fst ++ [d] ∧
          st'.droppedIds = st.droppedIds) ∧
        (MAX_TOKENS_PER_REQUEST < t →
          st'.committed = st.committed ++ B ∧
          st'.collectionIds = st.collectionIds ++ P.map Prod.fst ∧
          st'.droppedIds = st.droppedIds ++ [d]) := by
  intro fuel
  induction fuel with
  | zero => intro lb st P hP hall hnodup hdisj hlb hf; omega
  | succ fuel ih =>
    intro lb st P hP hall hnodup hdisj hlb hf
    rw [flushLoop]
    have hempf : st.pending.isEmpty = false := by
      rw [hP]; simp
    rw [hempf]
    simp only [Bool.false_eq_true, if_false]
    cases P with
    | nil =>
      have hP1 : st.pending = [(d, t)] := by simpa using hP
      have hdc : d ∉ st.collectionIds := hdisj (d, t) (by rw [hP1]; simp)
      rw [flushIter_single L lb st d t hP1 htL hdc hlb]
      by_cases hM : MAX_TOKENS_PER_REQUEST < t
      · rw [if_pos hM]
        refine ⟨lb, _, [], rfl, rfl, rfl, ?_, ?_⟩
        · intro h; omega
        · intro _
          exact ⟨by simp, by simp, rfl⟩
      · rw [if_neg hM]
        refine ⟨if 1 < lb then 1 else lb, _, [], rfl, rfl, rfl, ?_, ?_⟩
        · intro _
          exact ⟨by simp, by simp, rfl⟩
        · intro h; omega
    | cons p P2 =>
      have hne : st.pending ≠ [] := by rw [hP]; simp
      have hhead : ∀ q ∈ st.pending.take 1, q.2 ≤ L := by
        rw [hP]
        intro q hq
        simp at hq
        rw [hq]
        exact hall p (by simp)
      obtain ⟨n1, b, lb', st', hIter, hn1, hlb', hpend, hcomm, hcoll, hdrop,
        hn1len, hrem, hbne, hbgt⟩ := flushIter_benign L lb st hhead hdisj hlb hne
      have hsumP : sumTokens st.pending = sumTokens (p :: P2) + t := by
        rw [hP, sumTokens_append]
        simp [sumTokens]
      have hn1P : n1 ≤ (p :: P2).length := by
        by_contra hcon
        push_neg at hcon
        have hlenP : st.pending.length = (p :: P2).length + 1 := by
          rw [hP]; simp
        have hn1eq : n1 = st.pending.length := by omega
        have hdnil : st.pending.drop n1 = [] := by
          rw [hn1eq]
          exact List.drop_length _
        rw [hdnil] at hrem
        have h0 : sumTokens ([] : List (String × Nat)) = 0 := rfl
        rw [h0] at hrem
        omega
      have hdropP : st.pending.drop n1 = (p :: P2).drop n1 ++ [(d, t)] := by
        rw [hP]
        exact List.drop_append_of_le_length hn1P
      have htakeP : st.pending.take n1 = (p :: P2).take n1 := by
        rw [hP]
        exact List.take_append_of_le_length hn1P
      have hbf : b = false := by
        apply hbgt
        rw [hdropP, sumTokens_append]
        have : sumTokens [(d, t)] = t := by simp [sumTokens]
        omega
      rw [hIter, hbf]
      have hsplit : ((st.pending.take n1).map Prod.fst).Disjoint
          ((st.pending.drop n1).map Prod.fst) := by
        have h1 : st.pending.map Prod.fst =
            (st.pending.take n1).map Prod.fst ++ (st.pending.drop n1).map Prod.fst := by
          rw [← List.map_append, List.take_append_drop]
        rw [h1] at hnodup
        exact (List.nodup_append.mp hnodup).2.2
      have hP2 : st'.pending = (p :: P2).drop n1 ++ [(d, t)] := by
        rw [hpend, hdropP]
      have hall2 : ∀ q ∈ (p :: P2).drop n1, q.2 ≤ L := by
        intro q hq
        exact hall q (List.mem_of_mem_drop hq)
      have hnodup2 : (st'.pending.map Prod.fst).Nodup := by
        rw [hpend]
        exact hnodup.sublist ((List.drop_sublist _ _).map _)
      have hdisj2 : ∀ q ∈ st'.pending, q.1 ∉ st'.collectionIds := by
        rw [hpend, hcoll]
        intro q hq
        rw [List.mem_append]
        push_neg
        refine ⟨hdisj q (List.mem_of_mem_drop hq), ?_⟩
        intro hmem
        exact hsplit hmem (List.mem_map_of_mem _ hq)
      have hf2 : st'.pending.length + 1 ≤ fuel := by
        rw [hpend]
        have hld : (st.pending.drop n1).length = st.pending.length - n1 :=
          List.length_drop _ _
        have hlen : 0 < st.pending.length := List.length_pos.mpr hne
        omega
      obtain ⟨lb2, st2, B2, hLoop, hpend2, hflat2, hsmall, hbig⟩ :=
        ih lb' st' ((p :: P2).drop n1) hP2 hall2 hnodup2 hdisj2 hlb' hf2
      have hPsplit : ((p :: P2).take n1).map Prod.fst ++
          ((p :: P2).drop n1).map Prod.fst = (p :: P2).map Prod.fst := by
        rw [← List.map_append, List.take_append_drop]
      refine ⟨lb2, st2, [(st.pending.take n1).map Prod.fst] ++ B2, hLoop,
        hpend2, ?_, ?_, ?_⟩
      · simp only [List.flatten_append, List.flatten_cons, List.flatten_nil,
          List.append_nil]
        rw [hflat2, htakeP, hPsplit]
      · intro hM
        obtain ⟨hc, hci, hdr⟩ := hsmall hM
        refine ⟨?_, ?_, ?_⟩
        · rw [hc, hcomm]
          simp [List.append_assoc]
        · rw [hci, hcoll, htakeP]
          congr 1
          rw [List.append_assoc, hPsplit]
        · rw [hdr, hdrop]
      · intro hM
        obtain ⟨hc, hci, hdr⟩ := hbig hM
        refine ⟨?_, ?_, ?_⟩
        · rw [hc, hcomm]
          simp [List.append_assoc]
        · rw [hci, hcoll, htakeP]
          rw [List.append_assoc, hPsplit]
        · rw [hdr, hdrop]

set_option maxHeartbeats 1000000 in
/-- **C9.** For a single document over the (soft) token limit, the batch
indexer first flushes the pending batch — the committed upserts gain
batches `B` covering exactly the previously pending ids in order — and, if
the document is within `MAX_TOKENS_PER_REQUEST`, upserts it alone as a
final one-element batch; if it exceeds `MAX_TOKENS_PER_REQUEST` it is
dropped with an ERROR log (recorded in `droppedIds`) and never reaches the
vector store. -/
theorem single_doc_over_limits (L : Nat) (st : BatchState) (d : String) (t : Nat)
    (hall : ∀ p ∈ st.pending, p.2 ≤ L)
    (hnodup : (st.pending.map Prod.fst).Nodup)
    (hdisj : ∀ p ∈ st.pending, p.1 ∉ st.collectionIds)
    (hdnew : d ∉ st.pending.map Prod.fst)
    (hdcoll : d ∉ st.collectionIds)
    (hlb : 1 ≤ st.effectiveBatchSize)
    (htok : L < t) :
    ∃ B,
      B.flatten = st.pending.map Prod.fst ∧
      (process_document_batching L st d t).pending = [] ∧
      (t ≤ MAX_TOKENS_PER_REQUEST →
        (process_document_batching L st d t).committed =
          st.committed ++ B ++ [[d]] ∧
        (process_document_batching L st d t).collectionIds =
          st.collectionIds ++ st.pending.map Prod.fst ++ [d] ∧
        (process_document_batching L st d t).droppedIds = st.droppedIds) ∧
      (MAX_TOKENS_PER_REQUEST < t →
        (process_document_batching L st d t).committed = st.committed ++ B ∧
        (process_document_batching L st d t).collectionIds =
          st.collectionIds ++ st.pending.map Prod.fst ∧
        d ∉ st.collectionIds ++ st.pending.map Prod.fst ∧
        (process_document_batching L st d t).droppedIds =
          st.droppedIds ++ [d]) := by
  have h1 : ∃ k B1 S1,
      (if st.pending.isEmpty then st else applyFlush L st) = S1 ∧
      S1.pending = st.pending.drop k ∧
      S1.committed = st.committed ++ B1 ∧
      B1.flatten = (st.pending.take k).map Prod.fst ∧
      S1.collectionIds = st.collectionIds ++ (st.pending.take k).map Prod.fst ∧
      S1.droppedIds = st.droppedIds ∧
      1 ≤ S1.effectiveBatchSize := by
    cases hpe : st.pending.isEmpty with
    | true =>
      refine ⟨0, [], st, if_pos rfl, by simp, by simp, by simp, by simp, rfl, hlb⟩
    | false =>
      obtain ⟨k, lb1, stA, B1, hLoop, hlb1, hpendA, hcommA, hflatA, hcollA, hdropA⟩ :=
        flushLoop_benign L (st.pending.length + 1) st.effectiveBatchSize st
          hall hnodup hdisj hlb (le_refl _)
      refine ⟨k, B1, { stA with effectiveBatchSize := lb1 }, ?_, hpendA, hcommA,
        hflatA, hcollA, hdropA, hlb1⟩
      simp only [Bool.false_eq_true, if_false]
      rw [applyFlush]
      rw [flush_batch, hpe]
      simp only [Bool.false_eq_true, if_false]
      rw [hLoop]
  obtain ⟨k, B1, S1, hS1, hS1p, hS1c, hS1f, hS1ci, hS1d, hS1lb⟩ := h1
  have hsplitEq : (st.pending.take k).map Prod.fst ++
      (st.pending.drop k).map Prod.fst = st.pending.map Prod.fst := by
    rw [← List.map_append, List.take_append_drop]
  have hsplitK : ((st.pending.take k).map Prod.fst).Disjoint
      ((st.pending.drop k).map Prod.fst) := by
    have h2 := hnodup
    rw [← hsplitEq] at h2
    exact (List.nodup_append.mp h2).2.2
  have hP2p : (pushDoc S1 d t).pending = st.pending.drop k ++ [(d, t)] := by
    rw [pushDoc]
    dsimp only
    rw [hS1p]
  have hall3 : ∀ p ∈ st.pending.drop k, p.2 ≤ L :=
    fun p hp => hall p (List.mem_of_mem_drop hp)
  have hdd : d ∉ (st.pending.drop k).map Prod.fst := by
    intro hmem
    rw [List.map_drop] at hmem
    exact hdnew (List.mem_of_mem_drop hmem)
  have hdt : d ∉ (st.pending.take k).map Prod.fst := by
    intro hmem
    rw [List.map_take] at hmem
    exact hdnew (List.mem_of_mem_take hmem)
  have hnodup3 : ((pushDoc S1 d t).pending.map Prod.fst).Nodup := by
    rw [hP2p, List.map_append]
    refine List.nodup_append.mpr ⟨hnodup.sublist ((List.drop_sublist _ _).map _),
      List.nodup_singleton d, ?_⟩
    intro a ha hb
    simp at hb
    rw [hb] at ha
    exact hdd ha
  have hdisj3 : ∀ p ∈ (pushDoc S1 d t).pending,
      p.1 ∉ (pushDoc S1 d t).collectionIds := by
    have hci2 : (pushDoc S1 d t).collectionIds =
        st.collectionIds ++ (st.pending.take k).map Prod.fst := hS1ci
    rw [hP2p, hci2]
    intro p hp
    rw [List.mem_append] at hp
    rw [List.mem_append]
    push_neg
    cases hp with
    | inl hp =>
      refine ⟨hdisj p (List.mem_of_mem_drop hp), ?_⟩
      intro hmem
      exact hsplitK hmem (List.mem_map_of_mem _ hp)
    | inr hp =>
      have hpd : p = (d, t) := by simpa using hp
      rw [hpd]
      exact ⟨hdcoll, hdt⟩
  have hlb3 : 1 ≤ (pushDoc S1 d t).effectiveBatchSize := hS1lb
  obtain ⟨lb', st', B2, hLoop2, hpend', hflat2, hsmall, hbig⟩ :=
    flushLoop_oversized L d t htok ((pushDoc S1 d t).pending.length + 1)
      (pushDoc S1 d t).effectiveBatchSize (pushDoc S1 d t)
      (st.pending.drop k) hP2p hall3 hnodup3 hdisj3 hlb3 (le_refl _)
  have hres : process_document_batching L st d t =
      { st' with effectiveBatchSize := lb' } := by
    rw [process_document_batching, if_pos htok]
    rw [hS1]
    rw [applyFlush]
    rw [flush_batch]
    rw [show (pushDoc S1 d t).pending.isEmpty = false by rw [hP2p]; simp]
    simp only [Bool.false_eq_true, if_false]
    rw [hLoop2]
  have hP2c : (pushDoc S1 d t).committed = st.committed ++ B1 := hS1c
  have hP2ci : (pushDoc S1 d t).collectionIds =
      st.collectionIds ++ (st.pending.take k).map Prod.fst := hS1ci
  have hP2d : (pushDoc S1 d t).droppedIds = st.droppedIds := hS1d
  refine ⟨B1 ++ B2, ?_, ?_, ?_, ?_⟩
  · rw [List.flatten_append, hS1f, hflat2, hsplitEq]
  · rw [hres]
    exact hpend'
  · intro hM
    obtain ⟨hc, hci, hdr⟩ := hsmall hM
    refine ⟨?_, ?_, ?_⟩
    · rw [hres]
      have : st'.committed = st.committed ++ B1 ++ B2 ++ [[d]] := by
        rw [hc, hP2c]
      rw [this]
      simp [List.append_assoc]
    · rw [hres]
      have : st'.collectionIds = st.collectionIds ++
          (st.pending.take k).map Prod.fst ++
          (st.pending.drop k).map Prod.fst ++ [d] := by
        rw [hci, hP2ci]
      rw [this]
      congr 1
      rw [List.append_assoc, hsplitEq]
    · rw [hres]
      have : st'.droppedIds = st.droppedIds := by rw [hdr, hP2d]
      rw [this]
  · intro hM
    obtain ⟨hc, hci, hdr⟩ := hbig hM
    refine ⟨?_, ?_, ?_, ?_⟩
    · rw [hres]
      have : st'.committed = st.committed ++ B1 ++ B2 := by
        rw [hc, hP2c]
      rw [this]
      simp [List.append_assoc]
    · rw [hres]
      have : st'.collectionIds = st.collectionIds ++
          (st.pending.take k).map Prod.fst ++
          (st.pending.drop k).map Prod.fst := by
        rw [hci, hP2ci]
      rw [this]
      rw [List.append_assoc, hsplitEq]
    · rw [List.mem_append]
      push_neg
      exact ⟨hdcoll, hdnew⟩
    · rw [hres]
      have : st'.droppedIds = st.droppedIds ++ [d] := by rw [hdr, hP2d]
      rw [this]

theorem single_doc_over_limits_witness :
    (process_document_batching 5 w9st "b" 7).pending = [] ∧
    (process_document_batching 5 w9st "b" 7).committed = [["a"], ["b"]] ∧
    (process_document_batching 5 w9st "c" 300001).pending = [] ∧
    (process_document_batching 5 w9st "c" 300001).droppedIds = ["c"] ∧
    (process_document_batching 5 w9st "c" 300001).committed = [["a"]] := by
  obtain ⟨B, hflat, hpend, hsmall, hbig⟩ :=
    single_doc_over_limits 5 w9st "b" 7 (by decide) (by decide) (by decide)
      (by decide) (by decide) (by decide) (by decide)
  obtain ⟨B2, hflat2, hpend2, hsmall2, hbig2⟩ :=
    single_doc_over_limits 5 w9st "c" 300001 (by decide) (by decide) (by decide)
      (by decide) (by decide) (by decide) (by decide)
  have hdr2 : (process_document_batching 5 w9st "c" 300001).droppedIds =
      w9st.droppedIds ++ ["c"] := (hbig2 (by decide)).2.2.2
  refine ⟨hpend, by decide, hpend2, ?_, by decide⟩
  rw [hdr2]
  rfl

end Idxr
